import Mathlib

/-!
# Verification of the partition-planning engine of `mariadb-sequential-partition-manager`

This file shallowly embeds the partition-planning core of the repository
(`partitionmanager/types.py`, `partitionmanager/table_append_partition.py`,
`partitionmanager/dropper.py`, `partitionmanager/tools.py`) and proves or refutes
the specification claims about it.

Modelling conventions:

* Timestamps (`datetime`) are rational numbers of days since an arbitrary epoch
  (1970-01-01 UTC), and `timedelta` values are rational day counts.  Python float
  arithmetic is modelled exactly over the rationals.  `replace(minute=0, second=0,
  microsecond=0)` becomes flooring to a multiple of 1/24 of a day;
  `replace(hour=0, minute=0)` becomes flooring to a whole day while keeping the
  sub-minute (second/microsecond) part, exactly as the Python calls do.
* To keep every computation kernel-evaluable, rationals are represented by the
  unnormalised type `Q` (an integer numerator and a positive integer denominator,
  no gcd normalisation).  Semantic equality and order are by cross multiplication
  (`Q.beq`, `Q.le`); `Q.toRat` maps into Mathlib's `ℚ` and is used to state and
  prove the order-theoretic lemmas.
* Partition names matter to the code only through the `p_YYYYMMDD` / `p_YYYYMM` /
  `p_YYYY` / `p_start` parse in `_Partition.timestamp`, so names are modelled by
  `PartName`: `dated d` stands for any name parsing to midnight of day `d`,
  `pStart` for names containing `p_start`, and `anon i` for any other name.
* Python exceptions become an `Err` error type with `Except`; each constructor
  names the Python exception it stands for.
-/

set_option autoImplicit false

namespace PartMan

/-! ## Exact rational arithmetic (`Q`) -/

/-- An unnormalised rational: `num / den` with `0 < den`.  Used for timestamps
(days since epoch), durations (days) and rates (positions per day). -/
structure Q where
  num : Int
  den : Int
  dpos : 0 < den

namespace Q

def ofInt (n : Int) : Q := ⟨n, 1, Int.zero_lt_one⟩

def add (a b : Q) : Q :=
  ⟨a.num * b.den + b.num * a.den, a.den * b.den, mul_pos a.dpos b.dpos⟩

def neg (a : Q) : Q := ⟨-a.num, a.den, a.dpos⟩

def sub (a b : Q) : Q := a.add b.neg

def mul (a b : Q) : Q := ⟨a.num * b.num, a.den * b.den, mul_pos a.dpos b.dpos⟩

/-- Division.  All division sites in the source are guarded so that the divisor
is nonzero; the zero branch is junk that is never reached. -/
def div (a b : Q) : Q :=
  if h : 0 < b.num then ⟨a.num * b.den, a.den * b.num, mul_pos a.dpos h⟩
  else if h' : b.num < 0 then
    ⟨-(a.num * b.den), a.den * (-b.num), mul_pos a.dpos (by omega)⟩
  else ofInt 0

/-- Semantic order, by cross multiplication. -/
protected def le (a b : Q) : Prop := a.num * b.den ≤ b.num * a.den

protected def lt (a b : Q) : Prop := a.num * b.den < b.num * a.den

instance : LE Q := ⟨Q.le⟩
instance : LT Q := ⟨Q.lt⟩

instance decLe (a b : Q) : Decidable (a ≤ b) :=
  inferInstanceAs (Decidable (a.num * b.den ≤ b.num * a.den))

instance decLt (a b : Q) : Decidable (a < b) :=
  inferInstanceAs (Decidable (a.num * b.den < b.num * a.den))

/-- Semantic (Boolean) equality, by cross multiplication; models `datetime.__eq__`. -/
def beq (a b : Q) : Bool := a.num * b.den == b.num * a.den

def ble (a b : Q) : Bool := decide (a ≤ b)

def blt (a b : Q) : Bool := decide (a < b)

/-- `min` of two timestamps, as Python's `min` (returns the first on ties). -/
protected def min (a b : Q) : Q := if a ≤ b then a else b

/-- Mathematical floor; models `datetime.date()` seen as a day number. -/
def floor (a : Q) : Int := Int.fdiv a.num a.den

/-- The semantic value in Mathlib's rationals. -/
def toRat (a : Q) : ℚ := (a.num : ℚ) / (a.den : ℚ)

end Q

/-! ## Time flooring helpers

`floorHour` models `dt.replace(minute=0, second=0, microsecond=0)` and
`floorDayKeepSub` models `dt.replace(hour=0, minute=0)` (which zeroes the hour
and minute but keeps seconds and microseconds), with timestamps measured in
days. -/

/-- `dt.replace(minute=0, second=0, microsecond=0)`: floor to a whole hour. -/
def floorHour (x : Q) : Q := ⟨(x.mul (Q.ofInt 24)).floor, 24, by omega⟩

/-- `dt.replace(hour=0, minute=0)`: keep the date and the sub-minute part of the
time, zeroing hours and minutes.  In day units this is
`⌊x⌋ + (1440·x − ⌊1440·x⌋)/1440`. -/
def floorDayKeepSub (x : Q) : Q :=
  let m := x.mul (Q.ofInt 1440)
  (Q.ofInt x.floor).add ((m.sub (Q.ofInt m.floor)).div (Q.ofInt 1440))

/-! ## Domain model (`partitionmanager/types.py`) -/

/-- Python exceptions raised by the modelled code. -/
inductive Err where
  | unexpectedPartition   -- UnexpectedPartitionException
  | valueError            -- ValueError
  | noEmptyPartitions     -- NoEmptyPartitionsAvailableException
  | duplicatePartition    -- DuplicatePartitionException
  | assertionError        -- AssertionError
  | typeError             -- TypeError (e.g. arithmetic or comparison with None)
  | attributeError        -- AttributeError (e.g. None.date(), MaxValuePartition.position)
  | zeroDivision          -- ZeroDivisionError
  | indexError            -- IndexError (list.pop(0) on an empty list)
  | runtimeError          -- RuntimeError (StopIteration escaping a generator)
  | noExactTime           -- NoExactTimeException
  | fuelExhausted         -- modelling artefact: fuel bound of the conflict loop
deriving DecidableEq, Repr

instance : BEq Q := ⟨Q.beq⟩

instance : Repr Q := ⟨fun q _ => repr (q.num, q.den)⟩

instance exceptDecEq {ε α : Type} [DecidableEq ε] [DecidableEq α] :
    DecidableEq (Except ε α)
  | .ok a, .ok b => decidable_of_iff (a = b) (by simp)
  | .ok _, .error _ => isFalse (by simp)
  | .error _, .ok _ => isFalse (by simp)
  | .error e, .error f => decidable_of_iff (e = f) (by simp)

instance : DecidableEq Q := fun a b =>
  decidable_of_iff (a.num = b.num ∧ a.den = b.den) (by cases a; cases b; simp)

/-- A partition name, abstracted to what `_Partition.timestamp` extracts from it:
`dated d` is any name of the form `p_YYYYMMDD` / `p_YYYYMM` / `p_YYYY` parsing to
midnight UTC of day `d` (days since 1970-01-01); `pStart` is a name containing
`p_start` (synthetic timestamp 2021-01-01); `anon i` is any other name, which
yields no timestamp. -/
inductive PartName where
  | dated (day : Int)
  | pStart
  | anon (tag : Nat)
deriving DecidableEq, Repr

/-- 2021-01-01 as days since 1970-01-01 (the synthetic `p_start` timestamp). -/
def pStartDay : Int := 18628

/-- `_Partition.timestamp()`: the timestamp parsed from the name, if any. -/
def PartName.timestamp : PartName → Option Q
  | .dated d => some (Q.ofInt d)
  | .pStart => some (Q.ofInt pStartDay)
  | .anon _ => none

/-- An existing table partition: `PositionPartition`, `MaxValuePartition` or
`InstantPartition`.  The instant constructor carries only a timestamp and a
position — the two arguments its only construction sites
(`table_append_partition.py` lines 401-424) pass, although `types.py` line 423
declares `__init__(self, name, now, position_in)`: in the committed code those
calls raise `TypeError` (modelled in `rateRelevantPartitions`), so instants
only arise in the intended assembly `rateRelevantPartitionsIntended`, where
rate estimation never reads the missing name. -/
inductive Partition where
  | position (name : PartName) (pos : List Int)
  | maxValue (name : PartName) (count : Nat)
  | instant (ts : Q) (pos : List Int)
deriving BEq, DecidableEq, Repr

namespace Partition

def numColumns : Partition → Nat
  | .position _ pos => pos.length
  | .maxValue _ count => count
  | .instant _ pos => pos.length

/-- `timestamp()`: name-derived for position/max-value partitions, the stored
instant for `InstantPartition` (which overrides `timestamp`). -/
def timestamp : Partition → Option Q
  | .position n _ => n.timestamp
  | .maxValue n _ => n.timestamp
  | .instant t _ => some t

/-- The `.position` attribute; `MaxValuePartition` has none (AttributeError). -/
def posOf : Partition → Except Err (List Int)
  | .position _ pos => .ok pos
  | .instant _ pos => .ok pos
  | .maxValue _ _ => .error .attributeError

/-- The position and (optional) timestamp of a `PositionPartition`-typed value
(`InstantPartition` included), or `none` for `MaxValuePartition`. -/
def posAndTs : Partition → Option (List Int × Option Q)
  | .position n pos => some (pos, n.timestamp)
  | .instant t pos => some (pos, some t)
  | .maxValue _ _ => none

end Partition

/-- The body of `PositionPartition.__lt__` against a position list: raises
`UnexpectedPartitionException` when the other list is empty or the lengths
differ, else "any coordinate strictly less". -/
def posLtList (mine other : List Int) : Except Err Bool :=
  if other.isEmpty || mine.length != other.length then .error .unexpectedPartition
  else .ok ((mine.zip other).any fun pr => pr.1 < pr.2)

/-- `p < current_position` (`__lt__` of the two partition classes against a
`Position`). -/
def partLtPos (p : Partition) (c : List Int) : Except Err Bool :=
  match p with
  | .position _ pos => posLtList pos c
  | .instant _ pos => posLtList pos c
  | .maxValue _ count =>
      if count ≠ c.length then .error .unexpectedPartition else .ok false

/-- `p < q` for two partitions. -/
def partLtPart (p q : Partition) : Except Err Bool :=
  match p with
  | .position _ pos =>
      match q with
      | .maxValue _ count =>
          if pos.length ≠ count then .error .unexpectedPartition else .ok true
      | .position _ pos2 => posLtList pos pos2
      | .instant _ pos2 => posLtList pos pos2
  | .instant _ pos =>
      match q with
      | .maxValue _ count =>
          if pos.length ≠ count then .error .unexpectedPartition else .ok true
      | .position _ pos2 => posLtList pos pos2
      | .instant _ pos2 => posLtList pos pos2
  | .maxValue _ count =>
      if count ≠ q.numColumns then .error .unexpectedPartition else .ok false

/-- `q >= current_position` (`__ge__` is `not self < other`). -/
def partGePos (q : Partition) (c : List Int) : Except Err Bool :=
  (partLtPos q c).map (fun b => !b)

/-! ## Splitting around the current position
(`_split_partitions_around_position`) -/

/-- One pass of the loop in `_split_partitions_around_position`: stable
partition of the list by `p < current_position`, propagating the first
comparison error. -/
def splitLtGe (c : List Int) : List Partition → Except Err (List Partition × List Partition)
  | [] => .ok ([], [])
  | p :: rest => do
      let b ← partLtPos p c
      let (ls, ge) ← splitLtGe c rest
      if b then pure (p :: ls, ge) else pure (ls, p :: ge)

/-- `_split_partitions_around_position`: returns (filled, active, empty). -/
def splitPartitionsAroundPosition (ps : List Partition) (c : List Int) :
    Except Err (List Partition × Partition × List Partition) := do
  let (ls, ge) ← splitLtGe c ps
  match ge with
  | [] => .error .indexError   -- `greater_or_equal_partitions.pop(0)` on an empty list
  | a :: rest => pure (ls, a, rest)

/-! ## Rate estimation -/

/-- `tools.pairwise`. -/
def pairwise {α : Type} (xs : List α) : List (α × α) := xs.zip xs.tail

/-- `_get_position_increase_per_day`. -/
def getPositionIncreasePerDay (p1 p2 : Partition) : Except Err (List Q) :=
  match p1.posAndTs, p2.posAndTs with
  | some (a, t1?), some (b, t2?) =>
      if a.length ≠ b.length then .error .valueError
      else
        match t1?, t2? with
        | some t1, some t2 =>
            if t2 ≤ t1 then .ok []   -- out-of-order pair is skipped
            else .ok ((b.zip a).map fun pr => (Q.ofInt (pr.1 - pr.2)).div (t2.sub t1))
        | _, _ => .ok []             -- missing timestamp: pair is skipped
  | _, _ => .error .valueError       -- not a PositionPartition

/-- `_generate_weights`: `[10000 / x for x in range(count, 0, -1)]`. -/
def generateWeights (count : Nat) : List Q :=
  (List.range count).map fun k : Nat =>
    (Q.ofInt 10000).div (Q.ofInt ((count : Int) - (k : Int)))

/-- Python `sum` over our rationals. -/
def qsum (l : List Q) : Q := l.foldl Q.add (Q.ofInt 0)

/-- `weighted_sums[idx] += val * weight` for one rate vector. -/
def addWeighted : List Q → List Q → Q → List Q
  | sums, [], _ => sums
  | [], _, _ => []
  | s :: ss, v :: vs, w => (s.add (v.mul w)) :: addWeighted ss vs w

/-- `_get_weighted_position_increase_per_day_for_partitions`. -/
def getWeightedPositionIncreasePerDayForPartitions (ps : List Partition) :
    Except Err (List Q) :=
  match ps with
  | [] => .error .valueError
  | p0 :: _ => do
      let posRates ← (pairwise ps).mapM fun pr => getPositionIncreasePerDay pr.1 pr.2
      let weights := generateWeights posRates.length
      let sums := (posRates.zip weights).foldl
        (fun sums prw => addWeighted sums prw.1 prw.2)
        (List.replicate p0.numColumns (Q.ofInt 0))
      let wsum := qsum weights
      -- `list(map(lambda x: x / sum(weights), weighted_sums))`: the division
      -- happens inside the per-element lambda, so an empty sums list never
      -- divides and a zero weight total raises only once an element exists
      match sums with
      | [] => pure []
      | _ =>
          if wsum.num = 0 then .error .zeroDivision
          else pure (sums.map fun s => s.div wsum)

/-! ## Forward prediction -/

/-- Python `int()` truncation toward zero. -/
def pyTrunc (q : Q) : Int := if Q.ofInt 0 ≤ q then q.floor else -((q.neg).floor)

/-- `_predict_forward_position`. -/
def predictForwardPosition (cur : List Int) (rates : List Q) (dur : Q) :
    Except Err (List Int) :=
  if cur.length ≠ rates.length then .error .valueError
  else if rates.any (fun r => r < Q.ofInt 0) then .error .valueError
  else
    let increase := rates.map fun r => r.mul dur
    let predicted := (cur.zip increase).map fun pi => pyTrunc ((Q.ofInt pi.1).add pi.2)
    if (cur.zip predicted).all (fun pn => pn.1 ≤ pn.2) then .ok predicted
    else .error .assertionError   -- `assert new >= old`

/-- Python `max` over a list (first maximal element wins ties). -/
def maxQ? : List Q → Option Q
  | [] => none
  | x :: xs => some (xs.foldl (fun a b => if a < b then b else a) x)

/-- `_predict_forward_time`.  The end position is an `Option` because the call
sites pass `last_changed.position`, which can be `None` (rejected here by the
`isinstance` check, a `ValueError`). -/
def predictForwardTime (cur : List Int) (endPos? : Option (List Int))
    (rates : List Q) (t : Q) : Except Err Q :=
  match endPos? with
  | none => .error .valueError
  | some endPos =>
      if ¬(cur.length = endPos.length ∧ endPos.length = rates.length) then
        .error .valueError
      else if rates.any (fun r => r ≤ Q.ofInt 0) then .error .valueError
      else
        let daysRemaining := (endPos.zip (cur.zip rates)).map
          fun x => (Q.ofInt (x.1 - x.2.1)).div x.2.2
        match maxQ? daysRemaining with
        | none => .error .valueError   -- `max()` of an empty sequence
        | some m =>
            if m < Q.ofInt 0 then .error .valueError
            else .ok (floorHour (t.add m))

/-- `_calculate_start_time`. -/
def calculateStartTime (lastChanged t lifespan : Q) : Q :=
  let s := lastChanged.add lifespan
  if s < t then t else floorHour s

/-! ## Planned partitions (`_PlannedPartition` and subclasses) -/

inductive PlannedKind where
  | change (old : Partition) (oldPos : Option (List Int))
  | new
deriving BEq, DecidableEq, Repr

/-- The mutable state of a `_PlannedPartition`. -/
structure Planned where
  kind : PlannedKind
  numCols : Option Nat
  pos : Option (List Int)
  ts : Option Q
  imp : Bool
deriving BEq, DecidableEq, Repr

instance : Inhabited Planned := ⟨⟨.new, none, none, none, true⟩⟩

def Partition.oldPosOf : Partition → Option (List Int)
  | .position _ pos => some pos
  | .instant _ pos => some pos
  | .maxValue _ _ => none

/-- `ChangePlannedPartition.__init__`. -/
def mkChange (old : Partition) : Planned :=
  { kind := .change old old.oldPosOf, numCols := some old.numColumns,
    pos := old.oldPosOf, ts := old.timestamp, imp := false }

/-- `NewPlannedPartition.__init__` (always important). -/
def mkNew : Planned :=
  { kind := .new, numCols := none, pos := none, ts := none, imp := true }

namespace Planned

/-- `set_timestamp`: stores `timestamp.replace(hour=0, minute=0)`. -/
def setTimestamp (p : Planned) (t : Q) : Planned :=
  { p with ts := some (floorDayKeepSub t) }

/-- `set_position`. -/
def setPosition (p : Planned) (l : List Int) : Except Err Planned :=
  match p.numCols with
  | some k => if l.length ≠ k then .error .unexpectedPartition
              else .ok { p with pos := some l }
  | none => .ok { p with pos := some l }

def setImportant (p : Planned) : Planned := { p with imp := true }

/-- `set_as_max_value`. -/
def setAsMaxValue (p : Planned) : Except Err Planned :=
  match p.pos with
  | none => .error .typeError   -- `len(None)`
  | some l => .ok { p with numCols := some l.length, pos := none }

def isNew (p : Planned) : Bool :=
  match p.kind with
  | .new => true
  | .change _ _ => false

def isChange (p : Planned) : Bool := !p.isNew

/-- `ChangePlannedPartition.old`. -/
def oldPartition? (p : Planned) : Option Partition :=
  match p.kind with
  | .change old _ => some old
  | .new => none

/-- `has_modifications`, with the Python evaluation order of
`A or (B and C) or D` and the `AttributeError` from `None.date()`. -/
def hasModifications (p : Planned) : Except Err Bool :=
  match p.kind with
  | .new => .ok false
  | .change old oldPos =>
      if p.pos ≠ oldPos then .ok true
      else if old.timestamp.isNone && p.ts.isSome then .ok true
      else
        match p.ts, old.timestamp with
        | some t, some ot => .ok (decide (t.floor ≠ ot.floor))
        | _, _ => .error .attributeError   -- `None.date()`

/-- `as_partition`. -/
def asPartition (p : Planned) : Except Err Partition :=
  match p.ts with
  | none => .error .valueError
  | some t =>
      match p.pos with
      | some l => .ok (.position (.dated t.floor) l)
      | none =>
          match p.numCols with
          | some k => .ok (.maxValue (.dated t.floor) k)
          | none => .error .typeError   -- MaxValuePartition with count=None cannot render

end Planned

/-! ## The plan builder (`_plan_partition_changes`) -/

/-- One iteration of the `for partition in empty_partitions` loop. -/
def planStep (c : List Int) (rates : List Q) (t lifespan : Q)
    (results : List Planned) (partition : Partition) : Except Err (List Planned) := do
  match results.getLast? with
  | none => .error .indexError   -- `results[-1]` of an empty list
  | some lastChanged => do
      let changed := mkChange partition
      let sof ← predictForwardTime c lastChanged.pos rates t
      match partition.posAndTs with
      | some (_, pts?) => do
          -- `isinstance(partition, PositionPartition)`: possibly rename
          let pts ← match pts? with
                    | none => .error .attributeError   -- `partition.timestamp().date()` on None
                    | some pts => pure pts
          let changed :=
            if sof.floor ≠ pts.floor then (changed.setTimestamp sof).setImportant
            else changed
          pure (results ++ [changed])
      | none => do
          -- `isinstance(partition, MaxValuePartition)`: assign timestamp and position
          let lts ← match lastChanged.ts with
                    | none => .error .typeError   -- None + allowed_lifespan
                    | some lts => pure lts
          let nominal := calculateStartTime lts t lifespan
          let changed := changed.setTimestamp (Q.min nominal sof)
          let newPos ← match lastChanged.pos with
                       | none => .error .attributeError   -- None.as_list()
                       | some lp => predictForwardPosition lp rates lifespan
          let changed ← changed.setPosition newPos
          pure (results ++ [changed])

/-- The `while len(results) < num_empty_partitions + 1` top-up loop.  The loop
adds one entry per iteration, so `target` iterations always suffice; `fuel` is
structural-recursion bookkeeping and `topUp` is called with `fuel = target`
(the `.fuelExhausted` branch is unreachable). -/
def topUpFuel (rates : List Q) (t lifespan : Q) (target : Nat) :
    Nat → List Planned → Except Err (List Planned)
  | fuel, results =>
      if results.length < target then
        match fuel with
        | 0 => .error .fuelExhausted
        | fuel' + 1 => do
            match results.getLast? with
            | none => .error .indexError
            | some lastChanged => do
                let lts ← match lastChanged.ts with
                          | none => .error .typeError
                          | some lts => pure lts
                let pst := calculateStartTime lts t lifespan
                let newPos ← match lastChanged.pos with
                             | none => .error .attributeError
                             | some lp => predictForwardPosition lp rates lifespan
                let newPart ← mkNew.setPosition newPos
                topUpFuel rates t lifespan target fuel' (results ++ [newPart.setTimestamp pst])
      else .ok results

def topUp (rates : List Q) (t lifespan : Q) (target : Nat) (results : List Planned) :
    Except Err (List Planned) :=
  topUpFuel rates t lifespan target target results

/-- Timestamp membership in the original partitions' timestamps, as Python's
`in` over a list that may contain `None`. -/
def tsMem (ts? : Option Q) (existing : List (Option Q)) : Bool :=
  existing.any fun e =>
    match ts?, e with
    | none, none => true
    | some a, some b => a.beq b
    | _, _ => false

/-- "That's not a conflict": a Change whose timestamp equals its old one. -/
def exemptFromConflict (p : Planned) : Bool :=
  match p.kind with
  | .change old _ =>
      match p.ts, old.timestamp with
      | none, none => true
      | some a, some b => a.beq b
      | _, _ => false
  | .new => false

/-- Bump one planned partition's timestamp by a day until it no longer collides
with a pre-existing timestamp (or is exempt).  The Python conflict loop scans
the whole plan, bumps the first conflicting entry and restarts; since each
entry's conflict test depends only on its own state and the fixed
`existing_timestamps` list, the net effect is this per-entry loop.  Every bump
consumes a strictly larger member of `existing`, so fuel
`existing.length + 1` can never run out; the fuel branch is a modelling
artefact. -/
def bumpTimestamp (existing : List (Option Q)) : Nat → Planned → Except Err Planned
  | 0, _ => .error .fuelExhausted
  | fuel + 1, p =>
      if tsMem p.ts existing && !(exemptFromConflict p) then
        match p.ts with
        | none => .error .typeError   -- None + timedelta(days=1)
        | some t => bumpTimestamp existing fuel (p.setTimestamp (t.add (Q.ofInt 1)))
      else .ok p

/-- The step-6 timestamp conflict-resolution loop. -/
def resolveConflicts (existing : List (Option Q)) (results : List Planned) :
    Except Err (List Planned) :=
  results.mapM (bumpTimestamp existing (existing.length + 1))

/-- The `filter(lambda f: f.timestamp() < evaluation_time, filled_partitions)`
of the misprediction branch (a `TypeError` when a timestamp is None). -/
def filterBeforeTime (t : Q) : List Partition → Except Err (List Partition)
  | [] => .ok []
  | f :: rest => do
      let keep ← match f.timestamp with
                 | none => .error .typeError   -- None < evaluation_time
                 | some ft => pure (decide (ft < t))
      let tail ← filterBeforeTime t rest
      pure (if keep then f :: tail else tail)

/-- The rate-relevant partition list assembly of `_plan_partition_changes`
(lines 392-424) as committed: every `InstantPartition(...)` call there passes
two arguments where `types.py` line 423 declares
`__init__(self, name, now, position_in)`, so the first constructor call of
either branch raises `TypeError`.  In the misprediction branch Python first
forces `list(filter(lambda f: f.timestamp() < evaluation_time, ...))` (which
itself raises `TypeError` on a `None` timestamp) before reaching the
constructor. -/
def rateRelevantPartitions (filledPartitions : List Partition)
    (activePartition : Partition) (currentPosition : List Int)
    (evaluationTime : Q) (ats : Q) : Except Err (List Partition) :=
  if ats < evaluationTime then
    -- `InstantPartition(active_partition.timestamp(), current_position)`:
    -- two arguments for a three-argument constructor
    .error .typeError
  else do
    let _ ← filterBeforeTime evaluationTime filledPartitions
    -- `InstantPartition(evaluation_time, current_position)`: same mismatch
    .error .typeError

/-- The straddle those same call sites intend (and the module's own tests
exercise with the three-argument constructor): what lines 392-424 compute once
`InstantPartition` also receives the name argument the committed calls omit.
The name plays no role in rate estimation, so the instants carry only the two
arguments actually passed.  Claims about the plan builder's intended behaviour
are stated against this assembly; the committed behaviour is
`rateRelevantPartitions` above. -/
def rateRelevantPartitionsIntended (filledPartitions : List Partition)
    (activePartition : Partition) (currentPosition : List Int)
    (evaluationTime : Q) (ats : Q) : Except Err (List Partition) :=
  if ats < evaluationTime then do
    let apos ← activePartition.posOf
    pure (filledPartitions ++
      [Partition.instant ats currentPosition,
       Partition.instant evaluationTime apos])
  else do
    let kept ← filterBeforeTime evaluationTime filledPartitions
    pure (kept ++ [Partition.instant evaluationTime currentPosition])

/-- `_plan_partition_changes` as committed.  Every run that survives the split
reaches the `InstantPartition` constructions inside `rateRelevantPartitions`
and raises `TypeError`, so this function never returns a plan
(`planPartitionChanges_not_ok` below). -/
def planPartitionChanges (partitionList : List Partition) (currentPosition : List Int)
    (evaluationTime allowedLifespan : Q) (numEmptyPartitions : Nat) :
    Except Err (List Planned) := do
  let (filledPartitions, activePartition, emptyPartitions) ←
    splitPartitionsAroundPosition partitionList currentPosition
  if emptyPartitions.isEmpty then .error .noEmptyPartitions
  else do
    let ats ← match activePartition.timestamp with
              | none => .error .typeError   -- `None < evaluation_time`
              | some a => pure a
    let rateRelevant ← rateRelevantPartitions filledPartitions activePartition
      currentPosition evaluationTime ats
    let rates ← getWeightedPositionIncreasePerDayForPartitions rateRelevant
    let afterLoop ← emptyPartitions.foldlM
      (planStep currentPosition rates evaluationTime allowedLifespan)
      [mkChange activePartition]
    let afterTopUp ← topUp rates evaluationTime allowedLifespan
      (numEmptyPartitions + 1) afterLoop
    let resolved ← resolveConflicts (partitionList.map Partition.timestamp) afterTopUp
    match resolved.getLast? with
    | none => .error .indexError
    | some last => do
        let last' ← last.setAsMaxValue   -- `results[-1].set_as_max_value()`
        pure (resolved.dropLast ++ [last'])

/-- `_plan_partition_changes` with the straddle its call sites intend (see
`rateRelevantPartitionsIntended`); identical to `planPartitionChanges` in
every other step.  The module's own tests exercise this behaviour. -/
def planPartitionChangesIntended (partitionList : List Partition)
    (currentPosition : List Int)
    (evaluationTime allowedLifespan : Q) (numEmptyPartitions : Nat) :
    Except Err (List Planned) := do
  let (filledPartitions, activePartition, emptyPartitions) ←
    splitPartitionsAroundPosition partitionList currentPosition
  if emptyPartitions.isEmpty then .error .noEmptyPartitions
  else do
    let ats ← match activePartition.timestamp with
              | none => .error .typeError   -- `None < evaluation_time`
              | some a => pure a
    let rateRelevant ← rateRelevantPartitionsIntended filledPartitions
      activePartition currentPosition evaluationTime ats
    let rates ← getWeightedPositionIncreasePerDayForPartitions rateRelevant
    let afterLoop ← emptyPartitions.foldlM
      (planStep currentPosition rates evaluationTime allowedLifespan)
      [mkChange activePartition]
    let afterTopUp ← topUp rates evaluationTime allowedLifespan
      (numEmptyPartitions + 1) afterLoop
    let resolved ← resolveConflicts (partitionList.map Partition.timestamp) afterTopUp
    match resolved.getLast? with
    | none => .error .indexError
    | some last => do
        let last' ← last.setAsMaxValue   -- `results[-1].set_as_max_value()`
        pure (resolved.dropLast ++ [last'])

/-! ## Deciding whether to run, and SQL generation -/

/-- `_should_run_changes`: any New, or any Change marked important. -/
def shouldRunChanges (alteredPartitions : List Planned) : Bool :=
  alteredPartitions.any fun p => p.isNew || (p.isChange && p.imp)

/-- First pass of `generate_sql_reorganize_partition_commands`: split the plan
into Changes and News, asserting that every Change precedes every New. -/
def collectChangesNews : List Planned → List Planned → List Planned →
    Except Err (List Planned × List Planned)
  | [], mods, news => .ok (mods.reverse, news.reverse)
  | p :: rest, mods, news =>
      if p.isChange then
        if !news.isEmpty then .error .assertionError   -- changes must precede news
        else collectChangesNews rest (p :: mods) news
      else collectChangesNews rest mods (p :: news)

/-- Render `_Partition.values()`. -/
def renderValues : Partition → String
  | .position _ pos => "(" ++ String.intercalate ", " (pos.map toString) ++ ")"
  | .instant _ pos => "(" ++ String.intercalate ", " (pos.map toString) ++ ")"
  | .maxValue _ count =>
      if count == 1 then "MAXVALUE"
      else "(" ++ String.intercalate ", " (List.replicate count "MAXVALUE") ++ ")"

/-- Render a partition name.  `dated d` prints the day number in place of the
`%Y%m%d` date text; only equality of names matters to the claims. -/
def renderName : PartName → String
  | .dated d => "p_" ++ toString d
  | .pStart => "p_start"
  | .anon i => "part_" ++ toString i

/-- The name of a concrete partition (an `InstantPartition` never reaches the
emitter). -/
def Partition.nameOf : Partition → Except Err PartName
  | .position n _ => .ok n
  | .maxValue n _ => .ok n
  | .instant _ _ => .error .attributeError

/-- Render the members of one `INTO (...)` list, enforcing the
`DuplicatePartitionException` check against all names seen so far. -/
def renderParts : List Partition → List PartName → Except Err (List String × List PartName)
  | [], ns => .ok ([], ns)
  | p :: rest, ns => do
      let nm ← p.nameOf
      if ns.contains nm then .error .duplicatePartition
      else do
        let (strs, ns') ← renderParts rest (ns ++ [nm])
        pure (("PARTITION `" ++ renderName nm ++ "` VALUES LESS THAN " ++ renderValues p)
          :: strs, ns')

/-- The reversed walk over the Changes (each paired with its `iter_show_end`
flag), carrying the emitted-name set. -/
def emitReversed (tableName : String) (news : List Planned) :
    List (Planned × Bool) → List PartName → Except Err (List String)
  | [], _ => .ok []
  | (m, final) :: rest, nameSet => do
      let head ← m.asPartition
      let newsParts ← if final then news.mapM Planned.asPartition else pure []
      let hm ← m.hasModifications
      if !final && !hm then
        emitReversed tableName news rest nameSet   -- no modifications: skip
      else do
        let (strs, nameSet') ← renderParts (head :: newsParts) nameSet
        let old ← match m.oldPartition? with
                  | some old => pure old
                  | none => .error .attributeError
        let oldName ← old.nameOf
        let cmd := "ALTER TABLE `" ++ tableName ++ "` REORGANIZE PARTITION `"
          ++ renderName oldName ++ "` INTO (" ++ String.intercalate ", " strs ++ ");"
        let tail ← emitReversed tableName news rest nameSet'
        pure (cmd :: tail)

/-- `generate_sql_reorganize_partition_commands`, with the generator run to a
list (as `cli.py` and the planner's callers do). -/
def generateSqlReorganizePartitionCommands (tableName : String)
    (changes : List Planned) : Except Err (List String) := do
  let (modified, news) ← collectChangesNews changes [] []
  let bail ←
    if news.isEmpty then do
      let mods ← modified.mapM Planned.hasModifications
      pure (mods.all fun b => !b)
    else pure false
  if bail then pure []   -- "No partitions have modifications and no new partitions"
  else
    match modified with
    | [] => .error .runtimeError   -- StopIteration escaping `iter_show_end`
    | _ =>
        emitReversed tableName news
          (((modified.dropLast.map fun m => (m, false)) ++ [(modified.getLast!, true)]).reverse)
          []

/-- `get_pending_sql_reorganize_partition_commands`.  The Python function
returns the generator unevaluated; we model the command list the caller
obtains by iterating it. -/
def getPendingSqlReorganizePartitionCommands (tableName : String)
    (partitionList : List Partition) (currentPosition : List Int)
    (allowedLifespan : Q) (numEmptyPartitions : Nat) (evaluationTime : Q) :
    Except Err (List String) := do
  let partitionChanges ← planPartitionChanges partitionList currentPosition
    evaluationTime allowedLifespan numEmptyPartitions
  if !(shouldRunChanges partitionChanges) then pure []
  else generateSqlReorganizePartitionCommands tableName partitionChanges

/-- `get_pending_sql_reorganize_partition_commands` over the intended planner
(`planPartitionChangesIntended`). -/
def getPendingSqlReorganizePartitionCommandsIntended (tableName : String)
    (partitionList : List Partition) (currentPosition : List Int)
    (allowedLifespan : Q) (numEmptyPartitions : Nat) (evaluationTime : Q) :
    Except Err (List String) := do
  let partitionChanges ← planPartitionChangesIntended partitionList
    currentPosition evaluationTime allowedLifespan numEmptyPartitions
  if !(shouldRunChanges partitionChanges) then pure []
  else generateSqlReorganizePartitionCommands tableName partitionChanges

/-! ## Applying a plan

Not itself source code: this is the effect on the partition list of executing
the SQL that `get_pending_sql_reorganize_partition_commands` returns.  When no
commands are returned the list is unchanged; otherwise each emitted
`REORGANIZE PARTITION old INTO (...)` replaces `old` (a Change's wrapped
partition, which is the active partition or one of the empty partitions) by the
Change's materialisation, the final Change's command additionally appending the
materialised News.  A Change is emitted iff it is final or has modifications;
the reversed emission order does not affect the final list. -/
def applyPlan (partitionList : List Partition) (c : List Int)
    (plan : List Planned) : Except Err (List Partition) := do
  let (filled, active, empty) ← splitPartitionsAroundPosition partitionList c
  let (changes, news) ← collectChangesNews plan [] []
  let olds ← changes.mapM fun m =>
    match m.oldPartition? with
    | some o => pure o
    | none => .error .valueError
  -- every planner-produced plan wraps exactly the active and empty partitions
  if ¬(olds == active :: empty) then .error .valueError
  else if !(shouldRunChanges plan) then pure partitionList   -- no SQL returned
  else do
    let mods ← changes.mapM Planned.hasModifications
    if news.isEmpty && mods.all (fun b => !b) then pure partitionList   -- emitter bails
    else
      match changes with
      | [] => .error .runtimeError
      | _ => do
          let withEnd := (changes.dropLast.map fun m => (m, false))
            ++ [(changes.getLast!, true)]
          let applied ← (withEnd.zip mods).mapM fun x =>
            if x.1.2 || x.2 then x.1.1.asPartition
            else
              match x.1.1.oldPartition? with
              | some o => pure o
              | none => Except.error Err.valueError
          let newsApplied ← news.mapM Planned.asPartition
          pure (filled ++ applied ++ newsApplied)

/-! ## The drop planner (`partitionmanager/dropper.py`) -/

/-- `_drop_statement`. -/
def dropStatement (tableName : String) (partitionList : List Partition) :
    Except Err String := do
  let names ← partitionList.mapM Partition.nameOf
  pure ("ALTER TABLE `" ++ tableName ++ "` DROP PARTITION IF EXISTS "
    ++ String.intercalate "," (names.map fun n => "`" ++ renderName n ++ "`") ++ " ;")

/-- The per-partition report entry stored in the `results` map. -/
structure DropInfo where
  name : PartName
  approxSize : Int
  /-- `(oldest_time, youngest_time)` when both lookups succeeded, `none` for
      the "unable to determine" placeholder entries. -/
  known : Option (Q × Q)
deriving BEq, DecidableEq, Repr

structure DropResults where
  entries : List DropInfo
  droppable : List Partition
  dropQuery : Option String
deriving BEq, DecidableEq, Repr

/-- The `for partition, next_partition in pairwise(partitions)` walk of
`get_droppable_partitions`.  `lookup` stands for
`database_helpers.calculate_exact_timestamp_via_query`; a `.noExactTime` error
is caught (placeholder entry), any other error propagates. -/
def dropWalk (lookup : Partition → Except Err Q) (c : List Int)
    (now retention : Q) :
    List (Partition × Partition) → Except Err (List DropInfo × List Partition)
  | [] => .ok ([], [])
  | (p, q) :: rest => do
      let ge ← partGePos q c
      if ge then pure ([], [])   -- subsequent partition is empty: break
      else
        match q with
        | .maxValue _ _ => pure ([], [])   -- can't handle MaxValuePartitions: break
        | _ => do
            let qpos ← q.posOf
            let ppos ← p.posOf
            let approx := ((qpos.zip ppos).map fun ab => ab.1 - ab.2).foldl (· + ·) 0
            let pname ← p.nameOf
            let step : Except Err (Option DropInfo × Bool) ←
              match lookup p with
              | .error e =>
                  if e = Err.noExactTime then pure (some ⟨pname, approx, none⟩, true)
                  else .error e
              | .ok startTime =>
                  match lookup q with
                  | .error e =>
                      if e = Err.noExactTime then pure (some ⟨pname, approx, none⟩, true)
                      else .error e
                  | .ok endTime =>
                      let youngestAge := now.sub endTime
                      if retention < youngestAge then
                        pure (some ⟨pname, approx, some (startTime, endTime)⟩, true)
                      else pure (none, false)
            let (entries, droppable) ← dropWalk lookup c now retention rest
            match step with
            | (some info, true) => pure (info :: entries, p :: droppable)
            | _ => pure (entries, droppable)

/-- `get_droppable_partitions`. -/
def getDroppablePartitions (lookup : Partition → Except Err Q)
    (partitions : List Partition) (c : List Int) (currentTimestamp : Q)
    (retentionPeriod : Option Q) (tableName : String) :
    Except Err DropResults := do
  -- `if not table.retention_period`: None and timedelta(0) are both falsy
  let retention ← match retentionPeriod with
    | none => .error .valueError
    | some r => if r.beq (Q.ofInt 0) then .error .valueError else pure r
  if partitions.isEmpty then pure ⟨[], [], none⟩
  else do
    let (entries, droppable) ←
      dropWalk lookup c currentTimestamp retention (pairwise partitions)
    if droppable.isEmpty then pure ⟨entries, droppable, none⟩
    else do
      let stmt ← dropStatement tableName droppable
      pure ⟨entries, droppable, some stmt⟩

/-- Whether a partition is a Tail (`MaxValuePartition`). -/
def Partition.isMaxValue : Partition → Bool
  | .maxValue _ _ => true
  | _ => false

/-- The droppable-partition selection as the specification words it (claim C8):
walk the adjacent pairs in order, stop at the first successor that is at or
past the current position or is a Tail; otherwise the predecessor is droppable
exactly when a timestamp lookup fails with `NoExactTime` or the successor's
first-row age `now - end_time` exceeds the retention period.  Stated
separately from `dropWalk` so the code's walk can be proved to refine it. -/
def specDroppables (lookup : Partition → Except Err Q) (c : List Int)
    (now retention : Q) : List (Partition × Partition) → Except Err (List Partition)
  | [] => .ok []
  | (p, q) :: rest => do
      let ge ← partGePos q c
      if ge || q.isMaxValue then pure []
      else do
        let cond ← match lookup p with
          | .error e =>
              if e = Err.noExactTime then pure true else .error e
          | .ok _ =>
              match lookup q with
              | .error e =>
                  if e = Err.noExactTime then pure true else .error e
              | .ok endTime => pure (decide (retention < now.sub endTime))
        let tail ← specDroppables lookup c now retention rest
        pure (if cond then p :: tail else tail)

/-! ## `SqlQuery` validation (`types.py`) -/

/-- Whether `sub` occurs as a contiguous run inside `cs`. -/
def isSubChars (sub : List Char) : List Char → Bool
  | [] => sub.isEmpty
  | c :: rest => sub.isPrefixOf (c :: rest) || isSubChars sub rest

/-- Substring containment (Python's `in` on strings). -/
def containsSubstr (s sub : String) : Bool := isSubChars sub.toList s.toList

/-- Python's `str.strip()` on a character list. -/
def trimChars (cs : List Char) : List Char :=
  ((cs.dropWhile Char.isWhitespace).reverse.dropWhile Char.isWhitespace).reverse

/-- Whether `SqlQuery.__new__` accepts the string (the checks of `types.py`
lines 94-126, in order; any failed check raises `ArgumentTypeError`).  Checks
run on the stripped string; `upper()` is per-character upcasing. -/
def sqlQueryAccepts (s : String) : Bool :=
  let cs := trimChars s.toList
  let up := cs.map Char.toUpper
  (cs.getLast? == some ';')             -- `query_string.endswith(";")`
    && !(cs.count ';' > 1)              -- more than one statement
    && (cs.count '?' ≥ 1)               -- `"?" not in query_string`
    && !(cs.count '?' > 1)              -- more than one substitution variable
    && ("SELECT ".toList.isPrefixOf up) -- `.upper().startswith("SELECT ")`
    && !(isSubChars "UPDATE ".toList up)
    && !(isSubChars "INSERT ".toList up)
    && !(isSubChars "DELETE ".toList up)

/-! ## Concrete fixtures

Days since 1970-01-01: 2020-12-27 = 18623, 2020-12-31 = 18627,
2021-01-01 = 18628, 2021-01-02 = 18629, ... -/

/-- The partition map of the repository's own planner tests:
`[p_20201231 (100), p_20210102 (200), future (MAXVALUE)]`. -/
def fixtureBasic : List Partition :=
  [.position (.dated 18627) [100], .position (.dated 18629) [200],
   .maxValue (.anon 0) 1]

/-- 2021-01-01 23:55 UTC (the evaluation time of the "imminent" test). -/
def evalTimeImminent : Q := (Q.ofInt 18628).add ⟨1435, 1440, by omega⟩

/-- A map whose two future bounded partitions will both start filling on the
same predicted day (2021-01-02), driving the emitter into the duplicate-name
check: `[p_20201223 (10), p_20201231 (170), p_20210104 (180), p_20210106 (200),
future (MAXVALUE)]` with current position 50. -/
def fixtureDup : List Partition :=
  [.position (.dated 18619) [10], .position (.dated 18627) [170],
   .position (.dated 18631) [180], .position (.dated 18633) [200],
   .maxValue (.anon 0) 1]

/-- `[p_20201227 (40), p_20201231 (100), future (MAXVALUE)]`, current position
70: the predicted start-of-fill of the tail falls at 2021-01-02 08:00. -/
def fixtureStraddle : List Partition :=
  [.position (.dated 18623) [40], .position (.dated 18627) [100],
   .maxValue (.anon 0) 1]

/-- Four partitions of which the middle pair parses no timestamp, so two of the
three adjacent pairs are dropped from the rate estimate. -/
def fixtureDropPair : List Partition :=
  [.position (.dated 18627) [0], .position (.dated 18629) [100],
   .position (.anon 0) [150], .position (.dated 18632) [200]]

/-- The drop-planner scenario: bounds 100..600 plus a tail, current position
340, retention two days, first-row timestamps 2021-05-20 / -05-27 / -06-03 /
-06-10 / -06-17, "now" 2021-07-01. -/
def fixtureDropParts : List Partition :=
  [.position (.anon 1) [100], .position (.anon 2) [200], .position (.anon 3) [300],
   .position (.anon 4) [400], .position (.anon 5) [500], .position (.anon 6) [600],
   .maxValue (.anon 7) 1]

def fixtureDropLookup : Partition → Except Err Q
  | .position (.anon 1) _ => .ok (Q.ofInt 18767)
  | .position (.anon 2) _ => .ok (Q.ofInt 18774)
  | .position (.anon 3) _ => .ok (Q.ofInt 18781)
  | .position (.anon 4) _ => .ok (Q.ofInt 18788)
  | .position (.anon 5) _ => .ok (Q.ofInt 18795)
  | _ => .error .noExactTime

/-! ## Helper definitions used only to state the claims -/

/-- Number of `NewPlannedPartition`s in a plan. -/
def countNews (plan : List Planned) : Nat := plan.countP fun p => p.isNew

/-- Whether some Change in the plan has modifications (propagating the
exceptions `has_modifications` can raise). -/
def anyChangeWithModifications (plan : List Planned) : Except Err Bool :=
  plan.foldlM
    (fun acc p =>
      if p.isChange then do
        let hm ← p.hasModifications
        pure (acc || hm)
      else pure acc)
    false

/-- Plan, apply the pending SQL, and plan again with the same inputs, over the
intended planner (`planPartitionChangesIntended`; the committed planner never
returns a plan, see `planPartitionChanges_not_ok`). -/
def replanAfterApplyIntended (partitionList : List Partition) (c : List Int)
    (t ls : Q) (n : Nat) : Except Err (List Planned) := do
  let plan1 ← planPartitionChangesIntended partitionList c t ls n
  let applied ← applyPlan partitionList c plan1
  planPartitionChangesIntended applied c t ls n

/-- `Forall₂ (· ≤ ·) c posl`: the position is at or beyond the current position
in every coordinate (and has the same arity). -/
def GeC (c posl : List Int) : Prop := List.Forall₂ (· ≤ ·) c posl

/-- Invariant carried by every entry of a successful plan (claim C1): its
position, when set, is at or beyond the current position with matching arity;
a cleared position leaves a column count matching the current position's
arity; and a Change wraps an original partition that was not below the
current position. -/
def PlannedInv (c : List Int) (p : Planned) : Prop :=
  ((∃ l, p.pos = some l ∧ GeC c l) ∨ (p.pos = none ∧ p.numCols = some c.length))
  ∧ (∀ old oldpos, p.kind = .change old oldpos → partLtPos old c = .ok false)

/-- The total comparison used to state the split characterisation: under the
matching-arity hypotheses it agrees with `partLtPos`. -/
def partLtPosB (p : Partition) (c : List Int) : Bool :=
  match p with
  | .position _ pos => (pos.zip c).any fun pr => pr.1 < pr.2
  | .instant _ pos => (pos.zip c).any fun pr => pr.1 < pr.2
  | .maxValue _ _ => false

/-! # Lemmas

Everything from here on is a theorem; the program embedding above is complete.

## Lemmas about `Q` and the flooring helpers -/

namespace Q

theorem den_pos_rat (a : Q) : (0 : ℚ) < (a.den : ℚ) := by
  exact_mod_cast a.dpos

theorem den_ne_zero_rat (a : Q) : ((a.den : ℚ)) ≠ 0 := ne_of_gt a.den_pos_rat

@[simp] theorem toRat_ofInt (n : Int) : (ofInt n).toRat = (n : ℚ) := by
  simp [ofInt, toRat]

@[simp] theorem toRat_add (a b : Q) : (a.add b).toRat = a.toRat + b.toRat := by
  have ha := a.den_ne_zero_rat; have hb := b.den_ne_zero_rat
  simp only [add, toRat]; push_cast; field_simp

@[simp] theorem toRat_neg (a : Q) : a.neg.toRat = -a.toRat := by
  simp only [neg, toRat]; push_cast; ring

@[simp] theorem toRat_sub (a b : Q) : (a.sub b).toRat = a.toRat - b.toRat := by
  simp [sub, sub_eq_add_neg]

@[simp] theorem toRat_mul (a b : Q) : (a.mul b).toRat = a.toRat * b.toRat := by
  have ha := a.den_ne_zero_rat; have hb := b.den_ne_zero_rat
  simp only [mul, toRat]; push_cast; field_simp

theorem toRat_div (a b : Q) (hb : b.num ≠ 0) : (a.div b).toRat = a.toRat / b.toRat := by
  have ha := a.den_ne_zero_rat; have hb' := b.den_ne_zero_rat
  rcases lt_trichotomy 0 b.num with h | h | h
  · have hbq : ((b.num : ℚ)) ≠ 0 := by exact_mod_cast hb
    simp only [div, dif_pos h, toRat]; push_cast; field_simp
  · exact absurd h.symm hb
  · have hbq : ((b.num : ℚ)) ≠ 0 := by exact_mod_cast hb
    have h2 : ¬ (0 < b.num) := by omega
    simp only [div, dif_neg h2, dif_pos h, toRat]; push_cast; field_simp

theorem le_iff_toRat (a b : Q) : a ≤ b ↔ a.toRat ≤ b.toRat := by
  show Q.le a b ↔ _
  rw [toRat, toRat, div_le_div_iff₀ a.den_pos_rat b.den_pos_rat, Q.le]
  exact_mod_cast Iff.rfl

theorem lt_iff_toRat (a b : Q) : a < b ↔ a.toRat < b.toRat := by
  show Q.lt a b ↔ _
  rw [toRat, toRat, div_lt_div_iff₀ a.den_pos_rat b.den_pos_rat, Q.lt]
  exact_mod_cast Iff.rfl

theorem beq_iff_toRat (a b : Q) : a.beq b = true ↔ a.toRat = b.toRat := by
  rw [toRat, toRat, div_eq_div_iff a.den_ne_zero_rat b.den_ne_zero_rat, beq, beq_iff_eq]
  exact_mod_cast Iff.rfl

theorem floor_eq_floor_toRat (a : Q) : a.floor = ⌊a.toRat⌋ := by
  have hd : (0 : Int) ≤ a.den := le_of_lt a.dpos
  rw [floor, Int.fdiv_eq_ediv _ hd, toRat]
  have h : a.den = ((a.den.toNat : Nat) : Int) := (Int.toNat_of_nonneg hd).symm
  rw [h]
  rw [show ((((a.den.toNat : Nat) : Int)) : ℚ) = ((a.den.toNat : Nat) : ℚ) by push_cast; ring]
  exact (Rat.floor_intCast_div_natCast a.num a.den.toNat).symm

theorem toRat_le_refl (a : Q) : a ≤ a := by
  rw [le_iff_toRat]

theorem min_le_left (a b : Q) : Q.min a b ≤ a := by
  unfold Q.min; split
  · exact toRat_le_refl a
  · rename_i h
    rw [le_iff_toRat]
    rw [le_iff_toRat] at h
    exact le_of_not_le h

theorem min_le_right (a b : Q) : Q.min a b ≤ b := by
  unfold Q.min; split
  · assumption
  · exact toRat_le_refl b

theorem le_min {a b c : Q} (hab : a ≤ b) (hac : a ≤ c) : a ≤ Q.min b c := by
  unfold Q.min; split <;> assumption

theorem le_trans' {a b c : Q} (hab : a ≤ b) (hbc : b ≤ c) : a ≤ c := by
  rw [le_iff_toRat] at *
  exact le_trans hab hbc

end Q

theorem toRat_floorHour (x : Q) :
    (floorHour x).toRat = ((⌊24 * x.toRat⌋ : ℤ) : ℚ) / 24 := by
  have h : (x.mul (Q.ofInt 24)).toRat = 24 * x.toRat := by
    rw [Q.toRat_mul, Q.toRat_ofInt]; ring
  show (((x.mul (Q.ofInt 24)).floor : ℤ) : ℚ) / ((24 : ℤ) : ℚ) = _
  rw [Q.floor_eq_floor_toRat, h]
  norm_num

theorem floorHour_le (x : Q) : floorHour x ≤ x := by
  rw [Q.le_iff_toRat, toRat_floorHour]
  rw [div_le_iff₀ (by norm_num : (0:ℚ) < 24)]
  calc ((⌊24 * x.toRat⌋ : ℤ) : ℚ) ≤ 24 * x.toRat := Int.floor_le _
    _ = x.toRat * 24 := by ring

theorem floorHour_mono {x y : Q} (h : x ≤ y) : floorHour x ≤ floorHour y := by
  rw [Q.le_iff_toRat] at h ⊢
  rw [toRat_floorHour, toRat_floorHour]
  have hf : ⌊24 * x.toRat⌋ ≤ ⌊24 * y.toRat⌋ := by
    apply Int.floor_le_floor; nlinarith
  gcongr

theorem floor_floorHour (x : Q) : (floorHour x).floor = x.floor := by
  rw [Q.floor_eq_floor_toRat, Q.floor_eq_floor_toRat, toRat_floorHour]
  set y := x.toRat with hy
  have h24 : (0:ℚ) < 24 := by norm_num
  have hle : ((24 * ⌊y⌋ : ℤ) : ℚ) ≤ 24 * y := by push_cast; nlinarith [Int.floor_le y]
  have h1 : (24 * ⌊y⌋ : ℤ) ≤ ⌊24 * y⌋ := Int.le_floor.mpr (by exact_mod_cast hle)
  rw [Int.floor_eq_iff]
  constructor
  · rw [le_div_iff₀ h24]
    calc ((⌊y⌋:ℤ):ℚ) * 24 = ((24*⌊y⌋ : ℤ):ℚ) := by push_cast; ring
      _ ≤ ((⌊24*y⌋ : ℤ):ℚ) := by exact_mod_cast h1
  · rw [div_lt_iff₀ h24]
    calc ((⌊24*y⌋:ℤ):ℚ) ≤ 24*y := Int.floor_le _
      _ < 24*(⌊y⌋+1) := by nlinarith [Int.lt_floor_add_one y]
      _ = (((⌊y⌋:ℤ):ℚ)+1) * 24 := by ring

theorem toRat_floorDayKeepSub (x : Q) :
    (floorDayKeepSub x).toRat =
      ((⌊x.toRat⌋ : ℤ) : ℚ) + (1440 * x.toRat - ((⌊1440 * x.toRat⌋ : ℤ) : ℚ)) / 1440 := by
  unfold floorDayKeepSub
  rw [Q.toRat_add, Q.toRat_div _ _ (by decide), Q.toRat_sub, Q.toRat_mul]
  rw [Q.toRat_ofInt, Q.toRat_ofInt, Q.toRat_ofInt]
  rw [Q.floor_eq_floor_toRat, Q.floor_eq_floor_toRat, Q.toRat_mul, Q.toRat_ofInt]
  ring_nf

theorem ofInt_floor_le_floorDayKeepSub (x : Q) :
    Q.ofInt x.floor ≤ floorDayKeepSub x := by
  rw [Q.le_iff_toRat, Q.toRat_ofInt, toRat_floorDayKeepSub, Q.floor_eq_floor_toRat]
  have hfrac : (0:ℚ) ≤ 1440 * x.toRat - ((⌊1440 * x.toRat⌋ : ℤ) : ℚ) := by
    have := Int.floor_le (1440 * x.toRat); linarith
  have : (0:ℚ) ≤ (1440 * x.toRat - ((⌊1440 * x.toRat⌋ : ℤ) : ℚ)) / 1440 := by positivity
  linarith

theorem floor_floorDayKeepSub (x : Q) : (floorDayKeepSub x).floor = x.floor := by
  rw [Q.floor_eq_floor_toRat, Q.floor_eq_floor_toRat, toRat_floorDayKeepSub]
  have hfrac0 : (0:ℚ) ≤ 1440 * x.toRat - ((⌊1440 * x.toRat⌋ : ℤ) : ℚ) := by
    have := Int.floor_le (1440 * x.toRat); linarith
  have hfrac1 : 1440 * x.toRat - ((⌊1440 * x.toRat⌋ : ℤ) : ℚ) < 1440 := by
    have := Int.lt_floor_add_one (1440 * x.toRat); linarith
  rw [Int.floor_eq_iff]
  constructor
  · have : (0:ℚ) ≤ (1440 * x.toRat - ((⌊1440 * x.toRat⌋ : ℤ) : ℚ)) / 1440 := by positivity
    linarith
  · have : (1440 * x.toRat - ((⌊1440 * x.toRat⌋ : ℤ) : ℚ)) / 1440 < 1 := by
      rw [div_lt_one (by norm_num : (0:ℚ) < 1440)]; exact hfrac1
    linarith

theorem Q.floor_mono {x y : Q} (h : x ≤ y) : x.floor ≤ y.floor := by
  rw [Q.floor_eq_floor_toRat, Q.floor_eq_floor_toRat]
  rw [Q.le_iff_toRat] at h
  exact Int.floor_le_floor h

theorem Q.ofInt_le_ofInt {m n : Int} (h : m ≤ n) : Q.ofInt m ≤ Q.ofInt n := by
  rw [Q.le_iff_toRat, Q.toRat_ofInt, Q.toRat_ofInt]; exact_mod_cast h

theorem Q.le_add_of_nonneg_right {t d : Q} (h : Q.ofInt 0 ≤ d) : t ≤ t.add d := by
  rw [Q.le_iff_toRat, Q.toRat_add]
  rw [Q.le_iff_toRat, Q.toRat_ofInt] at h
  push_cast at h
  linarith



/-! ## Concrete counterexamples for the corrected claims -/

/-- Supporting fact for claim C1's divergence note: on the planner-test
fixture, even the intended pipeline's second plan contains a Change with
modifications, so a second run of the intended code can emit further SQL. -/
theorem replanIntended_modified_change :
    (replanAfterApplyIntended fixtureBasic [50] (Q.ofInt 18628) (Q.ofInt 7)
        2).bind anyChangeWithModifications = .ok true := by decide

/-- C3, counterexample.  On `fixtureDropPair` only the first adjacent pair is
retained; the claim's formula (weights over retained pairs only) gives rate 50,
but the code keeps the dropped pairs' weights in the denominator and yields
100/11. -/
theorem c3_counterexample :
    (getWeightedPositionIncreasePerDayForPartitions fixtureDropPair).map
        (fun r => r.map fun q =>
          (q.beq ((Q.ofInt 100).div (Q.ofInt 11)), q.beq (Q.ofInt 50)))
      = .ok [(true, false)] := by decide

/-- Supporting fact for claim C4's divergence note: on `fixtureStraddle` the
intended planner's Tail change carries timestamp 2021-01-02 00:00 (18629),
while the claim's value — `min(last_planned.timestamp + allowed_lifespan,
startOfFill)` floored to the hour — is 2021-01-02 08:00: `set_timestamp`
floors to midnight, not to the hour. -/
theorem planIntended_tail_midnight :
    (do
      let rates ← getWeightedPositionIncreasePerDayForPartitions
        [Partition.position (.dated 18623) [40],
         Partition.instant (Q.ofInt 18627) [70],
         Partition.instant (Q.ofInt 18628) [100]]
      let sof ← predictForwardTime [70] (some [100]) rates (Q.ofInt 18628)
      let claimed := floorHour (Q.min ((Q.ofInt 18627).add (Q.ofInt 7)) sof)
      let plan ← planPartitionChangesIntended fixtureStraddle [70]
        (Q.ofInt 18628) (Q.ofInt 7) 1
      match (plan.getLast?).bind Planned.ts with
      | some actual => pure (actual.beq claimed, actual.beq (Q.ofInt 18629))
      | none => pure (true, false)) = Except.ok (false, true) := by decide

/-- C5.  As committed, `get_pending_sql_reorganize_partition_commands` raises
`TypeError` at the planner's two-argument `InstantPartition` calls before any
conflict resolution runs; under the intended three-argument repair, on
`fixtureDup` the planner renames both future bounded partitions to 2021-01-02
and dates the tail 2021-01-02 as well — the conflict loop does not compare
planned partitions with each other, and the emitter raises
`DuplicatePartitionException` on the planner's own plan. -/
theorem c5_planner_behavior :
    getPendingSqlReorganizePartitionCommands "t" fixtureDup [50]
        (Q.ofInt 7) 3 (Q.ofInt 18628) = .error .typeError
    ∧ getPendingSqlReorganizePartitionCommandsIntended "t" fixtureDup [50]
        (Q.ofInt 7) 3 (Q.ofInt 18628) = .error .duplicatePartition := by
  constructor
  · decide
  · decide

/-- Supporting fact for claim C6's divergence note: on the basic fixture the
intended plan's final Change has modifications (the tail gains a timestamp),
yet the intended `get_pending_sql_reorganize_partition_commands` returns no
SQL: `_should_run_changes` has no "final Change with modifications" clause. -/
theorem getPendingIntended_bails_on_modified :
    getPendingSqlReorganizePartitionCommandsIntended "table" fixtureBasic [50]
        (Q.ofInt 7) 2 (Q.ofInt 18628) = .ok []
    ∧ (planPartitionChangesIntended fixtureBasic [50] (Q.ofInt 18628)
        (Q.ofInt 7) 2).bind
        (fun plan => plan.getLast!.hasModifications) = .ok true := by
  constructor
  · decide
  · decide

/-- C7, counterexample.  Comparing two bounded partitions of equal arity 0
raises `UnexpectedPartitionException` (`if not other_position_list`), whereas
the claim's "any coordinate strictly less" rule would return `False`. -/
theorem c7_counterexample :
    partLtPart (Partition.position (.anon 0) []) (Partition.position (.anon 1) [])
        = .error .unexpectedPartition
    ∧ partLtPart (Partition.position (.anon 0) []) (Partition.position (.anon 1) [])
        ≠ .ok false := by decide

/-- C9, counterexample.  A single SELECT statement containing the term
`ANALYZE ` is accepted by `SqlQuery`; the forbidden-term list is only
`UPDATE `, `INSERT `, `DELETE `. -/
theorem c9_counterexample :
    sqlQueryAccepts "SELECT ANALYZE FROM place WHERE id=?;" = true
    ∧ containsSubstr "SELECT ANALYZE FROM place WHERE id=?;" "ANALYZE " = true := by
  decide

/-- C10, counterexample.  On an unsorted list the split is a stable partition,
not a contiguous cut: `filled ++ [active] ++ empty` differs from the input
order. -/
theorem c10_counterexample :
    splitPartitionsAroundPosition
        [Partition.position (.dated 18627) [10], Partition.position (.dated 18628) [1],
         Partition.maxValue (.anon 0) 1] [5]
      = .ok ([Partition.position (.dated 18628) [1]],
             Partition.position (.dated 18627) [10],
             [Partition.maxValue (.anon 0) 1])
    ∧ [Partition.position (.dated 18628) [1]]
        ++ Partition.position (.dated 18627) [10] :: [Partition.maxValue (.anon 0) 1]
      ≠ [Partition.position (.dated 18627) [10], Partition.position (.dated 18628) [1],
         Partition.maxValue (.anon 0) 1] := by decide


/-! ## General destructuring lemmas for `Except` computations -/

theorem exceptBindOk {α β : Type} {x : Except Err α} {f : α → Except Err β} {b : β} :
    (x >>= f) = .ok b ↔ ∃ a, x = .ok a ∧ f a = .ok b := by
  cases x <;> simp [Bind.bind, Except.bind]

theorem exceptPureEq {α : Type} (a : α) : (pure a : Except Err α) = .ok a := rfl

theorem mapM_ok_forall₂ {α β : Type} (f : α → Except Err β) :
    ∀ (l : List α) (r : List β), l.mapM f = .ok r →
      List.Forall₂ (fun a b => f a = .ok b) l r := by
  intro l
  induction l with
  | nil =>
      intro r h
      rw [List.mapM_nil] at h
      cases h
      exact .nil
  | cons a l ih =>
      intro r h
      rw [List.mapM_cons, exceptBindOk] at h
      obtain ⟨b, hb, h⟩ := h
      rw [exceptBindOk] at h
      obtain ⟨bs, hbs, h⟩ := h
      cases h
      exact .cons hb (ih bs hbs)

theorem forall₂_mem_right {α β : Type} {P : α → β → Prop} :
    ∀ {l : List α} {r : List β}, List.Forall₂ P l r → ∀ b ∈ r, ∃ a ∈ l, P a b := by
  intro l r h
  induction h with
  | nil => intro b hb; cases hb
  | cons hab _ ih =>
      intro b hb
      rcases List.mem_cons.mp hb with rfl | hb
      · exact ⟨_, List.mem_cons_self _ _, hab⟩
      · obtain ⟨a, ha, hp⟩ := ih b hb
        exact ⟨a, List.mem_cons_of_mem _ ha, hp⟩

theorem mem_of_getLast?_eq {α : Type} {l : List α} {a : α}
    (h : l.getLast? = some a) : a ∈ l := by
  cases l with
  | nil => cases h
  | cons x xs =>
      rw [List.getLast?_eq_getLast _ (by simp)] at h
      cases h
      exact List.getLast_mem _

/-! ## Claim C2: the rate-estimation straddle -/

/-- C2.  Intent of the straddle (the source's committed `InstantPartition`
calls omit the name argument that `types.py` requires, so in Python this code
path raises `TypeError`; `rateRelevantPartitionsIntended` carries the repair
the module's tests exercise).  When the active partition's timestamp is before
the evaluation time, the rate input is the filled partitions extended with the
two instants: one at the active partition's timestamp carrying the current
position, one at the evaluation time carrying the active partition's upper
bound. -/
theorem c2_intended_rate_input (filled : List Partition) (active : Partition)
    (c : List Int) (t ats : Q) (apos : List Int)
    (hlt : ats < t) (hpos : active.posOf = .ok apos) :
    rateRelevantPartitionsIntended filled active c t ats
      = .ok (filled ++ [.instant ats c, .instant t apos]) := by
  unfold rateRelevantPartitionsIntended
  rw [if_pos hlt, exceptBindOk]
  exact ⟨apos, hpos, rfl⟩

/-- C2, witness. -/
theorem c2_witness :
    rateRelevantPartitionsIntended [] (Partition.position (.dated 18627) [100])
        [50] evalTimeImminent (Q.ofInt 18627)
      = .ok [Partition.instant (Q.ofInt 18627) [50],
             Partition.instant evalTimeImminent [100]] := by
  have h := c2_intended_rate_input [] (Partition.position (.dated 18627) [100])
    [50] evalTimeImminent (Q.ofInt 18627) [100] (by decide) (by decide)
  simpa using h

/-! ## Claim C7: position and partition comparisons -/

/-- C7, amended.  For equal nonzero arity the comparison is the
"any coordinate strictly less" rule; Bounded < Tail holds at matching arity;
a Tail is less than no partition; differing arity and empty right-hand
operands raise `UnexpectedPartitionException`. -/
theorem c7_amended_comparison :
    (∀ (n m : PartName) (a b : List Int), a.length = b.length → b ≠ [] →
        partLtPart (.position n a) (.position m b)
          = .ok ((a.zip b).any fun pr => pr.1 < pr.2))
    ∧ (∀ (n m : PartName) (a : List Int) (k : Nat), a.length = k →
        partLtPart (.position n a) (.maxValue m k) = .ok true)
    ∧ (∀ (m : PartName) (k : Nat) (q : Partition), q.numColumns = k →
        partLtPart (.maxValue m k) q = .ok false)
    ∧ (∀ (n m : PartName) (a b : List Int), a.length ≠ b.length →
        partLtPart (.position n a) (.position m b) = .error .unexpectedPartition)
    ∧ (∀ (n m : PartName) (a : List Int) (k : Nat), a.length ≠ k →
        partLtPart (.position n a) (.maxValue m k) = .error .unexpectedPartition)
    ∧ (∀ (m : PartName) (k : Nat) (q : Partition), q.numColumns ≠ k →
        partLtPart (.maxValue m k) q = .error .unexpectedPartition)
    ∧ (∀ (n m : PartName) (a : List Int),
        partLtPart (.position n a) (.position m []) = .error .unexpectedPartition) := by
  refine ⟨?_, ?_, ?_, ?_, ?_, ?_, ?_⟩
  · intro n m a b hlen hb
    have h1 : b.isEmpty = false := by simpa [List.isEmpty_iff] using hb
    have h2 : (a.length != b.length) = false := by simp [hlen]
    simp [partLtPart, posLtList, h1, h2]
  · intro n m a k h
    simp [partLtPart, h]
  · intro m k q h
    simp [partLtPart, h]
  · intro n m a b h
    by_cases hb : b = []
    · subst hb; simp [partLtPart, posLtList]
    · have h1 : b.isEmpty = false := by simpa [List.isEmpty_iff] using hb
      have h2 : (a.length != b.length) = true := by simpa using h
      simp [partLtPart, posLtList, h1, h2]
  · intro n m a k h
    simp [partLtPart, h]
  · intro m k q h
    simp [partLtPart]
    omega
  · intro n m a
    simp [partLtPart, posLtList]

/-- C7, witness: the comparisons of the repository's own tests. -/
theorem c7_amended_witness :
    partLtPart (.position (.anon 0) [10, 10]) (.position (.anon 1) [11, 10]) = .ok true
    ∧ partLtPart (.position (.anon 0) [11, 11]) (.position (.anon 1) [11, 11]) = .ok false
    ∧ partLtPart (.position (.anon 0) [10, 10]) (.maxValue (.anon 1) 2) = .ok true
    ∧ partLtPart (.maxValue (.anon 0) 2) (.position (.anon 1) [10, 10]) = .ok false
    ∧ partLtPart (.position (.anon 0) [10, 10]) (.maxValue (.anon 1) 1)
        = .error .unexpectedPartition := by
  refine ⟨?_, ?_, ?_, ?_, ?_⟩
  · have h := c7_amended_comparison.1 (.anon 0) (.anon 1) [10, 10] [11, 10]
      (by decide) (by decide)
    simpa using h
  · have h := c7_amended_comparison.1 (.anon 0) (.anon 1) [11, 11] [11, 11]
      (by decide) (by decide)
    simpa using h
  · exact c7_amended_comparison.2.1 (.anon 0) (.anon 1) [10, 10] 2 (by decide)
  · exact c7_amended_comparison.2.2.1 (.anon 0) 2 (.position (.anon 1) [10, 10]) (by decide)
  · exact c7_amended_comparison.2.2.2.2.1 (.anon 0) (.anon 1) [10, 10] 1 (by decide)

/-! ## Claim C10: the split around the current position -/

theorem partLtPos_ok_of_arity (p : Partition) (c : List Int) (hc : c ≠ [])
    (h : p.numColumns = c.length) : partLtPos p c = .ok (partLtPosB p c) := by
  have h1 : c.isEmpty = false := by simpa [List.isEmpty_iff] using hc
  cases p with
  | position n pos =>
      have h2 : (pos.length != c.length) = false := by
        simpa using h
      simp [partLtPos, posLtList, partLtPosB, h1, h2]
  | instant ts pos =>
      have h2 : (pos.length != c.length) = false := by
        simpa using h
      simp [partLtPos, posLtList, partLtPosB, h1, h2]
  | maxValue n k =>
      have h' : k = c.length := h
      simp [partLtPos, partLtPosB, h']

theorem splitLtGe_filter (c : List Int) :
    ∀ L : List Partition,
      (∀ p ∈ L, partLtPos p c = .ok (partLtPosB p c)) →
      splitLtGe c L = .ok (L.filter (fun p => partLtPosB p c),
                           L.filter (fun p => !(partLtPosB p c))) := by
  intro L
  induction L with
  | nil => intro _; rfl
  | cons p rest ih =>
      intro h
      have hp := h p (List.mem_cons_self ..)
      have hr := ih fun q hq => h q (List.mem_cons_of_mem _ hq)
      rw [splitLtGe, exceptBindOk]
      refine ⟨partLtPosB p c, hp, ?_⟩
      rw [exceptBindOk]
      refine ⟨_, hr, ?_⟩
      by_cases hb : partLtPosB p c
      · simp [hb, List.filter_cons]
        rfl
      · simp [hb, List.filter_cons]
        rfl

/-- C10, amended.  For a list ending in a Tail whose members all share the
Position's nonzero arity the split is total: the active partition exists (the
Tail is never strictly less than the Position, so the greater-or-equal side is
non-empty and its head becomes active), and filled / active :: empty are the
two stable subsequences selected by the strictly-less test — so their
concatenation is a permutation of the input, not necessarily the input
itself. -/
theorem c10_amended_split (Lb : List Partition) (nm : PartName) (c : List Int)
    (hc : c ≠ []) (har : ∀ p ∈ Lb, p.numColumns = c.length) :
    ∃ filled active empty,
      splitPartitionsAroundPosition (Lb ++ [Partition.maxValue nm c.length]) c
        = .ok (filled, active, empty)
      ∧ filled = (Lb ++ [Partition.maxValue nm c.length]).filter (fun p => partLtPosB p c)
      ∧ active :: empty
          = (Lb ++ [Partition.maxValue nm c.length]).filter (fun p => !(partLtPosB p c))
      ∧ (filled ++ active :: empty).Perm (Lb ++ [Partition.maxValue nm c.length]) := by
  set L := Lb ++ [Partition.maxValue nm c.length] with hL
  have harL : ∀ p ∈ L, p.numColumns = c.length := by
    intro p hp
    rcases List.mem_append.mp hp with h | h
    · exact har p h
    · rcases List.mem_singleton.mp h with rfl
      rfl
  have hsplit := splitLtGe_filter c L fun p hp =>
    partLtPos_ok_of_arity p c hc (harL p hp)
  have hge : L.filter (fun p => !(partLtPosB p c))
      = Lb.filter (fun p => !(partLtPosB p c)) ++ [Partition.maxValue nm c.length] := by
    rw [hL, List.filter_append]
    simp [partLtPosB]
  obtain ⟨active, empty, hcons⟩ :
      ∃ a e, L.filter (fun p => !(partLtPosB p c)) = a :: e := by
    rw [hge]
    cases hx : Lb.filter (fun p => !(partLtPosB p c)) with
    | nil => exact ⟨_, _, rfl⟩
    | cons y ys => exact ⟨y, ys ++ [Partition.maxValue nm c.length], by simp⟩
  refine ⟨L.filter (fun p => partLtPosB p c), active, empty, ?_, rfl, hcons.symm, ?_⟩
  · unfold splitPartitionsAroundPosition
    rw [exceptBindOk]
    refine ⟨_, hsplit, ?_⟩
    rw [hcons]
    rfl
  · rw [hcons.symm]
    exact List.filter_append_perm _ L

/-- C10, witness: the split of the repository's own test fixture. -/
theorem c10_amended_witness :
    splitPartitionsAroundPosition
        [Partition.position (.dated 18628) [1], Partition.position (.dated 18629) [11],
         Partition.maxValue (.anon 9) 1] [10]
      = .ok ([Partition.position (.dated 18628) [1]],
             Partition.position (.dated 18629) [11],
             [Partition.maxValue (.anon 9) 1]) := by
  obtain ⟨filled, active, empty, hs, hf, hae, -⟩ :=
    c10_amended_split
      [Partition.position (.dated 18628) [1], Partition.position (.dated 18629) [11]]
      (.anon 9) [10] (by decide) (by intro p hp; fin_cases hp <;> rfl)
  have hf' : filled = [Partition.position (.dated 18628) [1]] := by
    rw [hf]; decide
  have hae' : active :: empty
      = [Partition.position (.dated 18629) [11], Partition.maxValue (.anon 9) 1] := by
    rw [hae]; decide
  injection hae' with ha he
  rw [hf', ha, he] at hs
  exact hs


/-! ## Claim C9: `SqlQuery` validation -/

/-- C9, amended.  A query string is accepted exactly when the stripped string
ends in a semicolon, contains exactly one semicolon and exactly one question
mark, starts (upper-cased) with "SELECT ", and contains none of the three
forbidden terms "UPDATE ", "INSERT ", "DELETE "; statements beginning with SET
or ANALYZE are rejected only by the SELECT-prefix check, and a SELECT that
merely mentions ANALYZE or OPTIMIZE is accepted. -/
theorem c9_amended_accepts_iff :
    (∀ s : String,
      sqlQueryAccepts s = true ↔
        ((trimChars s.toList).getLast? = some ';'
          ∧ (trimChars s.toList).count ';' = 1
          ∧ (trimChars s.toList).count '?' = 1
          ∧ "SELECT ".toList.isPrefixOf ((trimChars s.toList).map Char.toUpper) = true
          ∧ isSubChars "UPDATE ".toList ((trimChars s.toList).map Char.toUpper) = false
          ∧ isSubChars "INSERT ".toList ((trimChars s.toList).map Char.toUpper) = false
          ∧ isSubChars "DELETE ".toList ((trimChars s.toList).map Char.toUpper) = false))
    ∧ sqlQueryAccepts "SET SESSION sql_mode = ?;" = false
    ∧ sqlQueryAccepts "ANALYZE TABLE burgers WHERE id = ?;" = false
    ∧ sqlQueryAccepts "SELECT OPTIMIZE FROM burgers WHERE id = ?;" = true := by
  refine ⟨?_, by decide, by decide, by decide⟩
  intro s
  constructor
  · intro h
    unfold sqlQueryAccepts at h
    simp only [Bool.and_eq_true, Bool.not_eq_true', beq_iff_eq, decide_eq_true_eq,
      decide_eq_false_iff_not, not_lt] at h
    obtain ⟨⟨⟨⟨⟨⟨⟨h1, h2⟩, h3⟩, h4⟩, h5⟩, h6⟩, h7⟩, h8⟩ := h
    have hmem : ';' ∈ trimChars s.toList := mem_of_getLast?_eq h1
    have hpos : 0 < (trimChars s.toList).count ';' := List.count_pos_iff.mpr hmem
    exact ⟨h1, by omega, by omega, h5, h6, h7, h8⟩
  · intro ⟨h1, h2, h3, h4, h5, h6, h7⟩
    unfold sqlQueryAccepts
    simp only [Bool.and_eq_true, Bool.not_eq_true', beq_iff_eq, decide_eq_true_eq,
      decide_eq_false_iff_not, not_lt]
    exact ⟨⟨⟨⟨⟨⟨⟨h1, by omega⟩, by omega⟩, by omega⟩, h4⟩, h5⟩, h6⟩, h7⟩

/-- C9, witness: the earliest-utc query of the repository's own configuration
examples is accepted, via the characterization. -/
theorem c9_amended_witness :
    sqlQueryAccepts "SELECT id FROM burgers WHERE type = ?;" = true :=
  (c9_amended_accepts_iff.1 "SELECT id FROM burgers WHERE type = ?;").mpr
    ⟨by decide, by decide, by decide, by decide, by decide, by decide, by decide⟩


/-! ## Claim C6: the decision to emit -/

theorem collectChangesNews_sub :
    ∀ (l mods news m nw : List Planned),
      collectChangesNews l mods news = .ok (m, nw) → ∀ x ∈ news, x ∈ nw := by
  intro l
  induction l with
  | nil =>
      intro mods news m nw h x hx
      rw [collectChangesNews] at h
      injection h with h
      injection h with h1 h2
      rw [← h2]
      exact List.mem_reverse.mpr hx
  | cons q rest ih =>
      intro mods news m nw h x hx
      rw [collectChangesNews] at h
      by_cases hq : q.isChange
      · rw [if_pos hq] at h
        by_cases hne : news.isEmpty
        · rw [if_neg (by simp [hne])] at h
          exact ih _ _ _ _ h x hx
        · rw [if_pos (by simpa using hne)] at h
          cases h
      · rw [if_neg hq] at h
        exact ih _ _ _ _ h x (List.mem_cons_of_mem _ hx)

theorem collectChangesNews_mem_news :
    ∀ (l mods news m nw : List Planned),
      collectChangesNews l mods news = .ok (m, nw) →
      ∀ p ∈ l, p.isChange = false → p ∈ nw := by
  intro l
  induction l with
  | nil => intro mods news m nw h p hp; cases hp
  | cons q rest ih =>
      intro mods news m nw h p hp hpc
      rw [collectChangesNews] at h
      rcases List.mem_cons.mp hp with rfl | hp
      · rw [if_neg (by simp [hpc])] at h
        exact collectChangesNews_sub _ _ _ _ _ h p (List.mem_cons_self _ _)
      · by_cases hq : q.isChange
        · rw [if_pos hq] at h
          by_cases hne : news.isEmpty
          · rw [if_neg (by simp [hne])] at h
            exact ih _ _ _ _ h p hp hpc
          · rw [if_pos (by simpa using hne)] at h
            cases h
        · rw [if_neg hq] at h
          exact ih _ _ _ _ h p hp hpc

theorem exceptBindOkSimp {α β : Type} (a : α) (f : α → Except Err β) :
    (Except.ok a >>= f : Except Err β) = f a := rfl

theorem exceptBindErrSimp {α β : Type} (e : Err) (f : α → Except Err β) :
    (Except.error e >>= f : Except Err β) = Except.error e := rfl

/-! ## The committed planner never returns a plan

`_plan_partition_changes` as committed reaches a two-argument
`InstantPartition` call on every run that survives the split, and
`InstantPartition.__init__` takes three arguments, so the call raises
`TypeError` before any plan is assembled. -/

theorem rateRelevantPartitions_not_ok (filled : List Partition)
    (active : Partition) (c : List Int) (t ats : Q) (rel : List Partition) :
    rateRelevantPartitions filled active c t ats ≠ .ok rel := by
  intro h
  unfold rateRelevantPartitions at h
  by_cases hlt : ats < t
  · rw [if_pos hlt] at h
    exact Except.noConfusion h
  · rw [if_neg hlt] at h
    rw [exceptBindOk] at h
    obtain ⟨a, ha, h⟩ := h
    exact Except.noConfusion h

theorem planPartitionChanges_not_ok (L : List Partition) (c : List Int)
    (t lifespan : Q) (n : Nat) (plan : List Planned) :
    planPartitionChanges L c t lifespan n ≠ .ok plan := by
  intro hplan
  unfold planPartitionChanges at hplan
  cases h1 : splitPartitionsAroundPosition L c with
  | error e => rw [h1] at hplan; exact Except.noConfusion hplan
  | ok trip =>
  obtain ⟨filled, active, empty⟩ := trip
  rw [h1] at hplan
  simp only [exceptBindOkSimp] at hplan
  cases he : empty.isEmpty with
  | true => rw [he] at hplan; exact Except.noConfusion hplan
  | false =>
  rw [he] at hplan
  simp only [Bool.false_eq_true, if_false] at hplan
  cases h2 : active.timestamp with
  | none => rw [h2] at hplan; exact Except.noConfusion hplan
  | some ats =>
  rw [h2] at hplan
  simp only [pure_bind] at hplan
  cases h3 : rateRelevantPartitions filled active c t ats with
  | error e => rw [h3] at hplan; exact Except.noConfusion hplan
  | ok rel =>
      exact rateRelevantPartitions_not_ok filled active c t ats rel h3

theorem getPending_not_ok (tableName : String) (L : List Partition)
    (c : List Int) (lifespan : Q) (n : Nat) (t : Q) (cmds : List String) :
    getPendingSqlReorganizePartitionCommands tableName L c lifespan n t
      ≠ .ok cmds := by
  intro h
  unfold getPendingSqlReorganizePartitionCommands at h
  rw [exceptBindOk] at h
  obtain ⟨plan, hplan, h⟩ := h
  exact planPartitionChanges_not_ok L c t lifespan n plan hplan

theorem emitReversed_final_cons (tableName : String) (news : List Planned)
    (m : Planned) (rest : List (Planned × Bool)) (ns : List PartName)
    (cmds : List String)
    (h : emitReversed tableName news ((m, true) :: rest) ns = .ok cmds) :
    cmds ≠ [] := by
  rw [emitReversed] at h
  cases h1 : m.asPartition with
  | error e => rw [h1] at h; exact Except.noConfusion h
  | ok head =>
  rw [h1] at h
  simp only [exceptBindOkSimp, eq_self_iff_true, if_true] at h
  cases h2 : news.mapM Planned.asPartition with
  | error e => rw [h2] at h; exact Except.noConfusion h
  | ok newsParts =>
  rw [h2] at h
  simp only [exceptBindOkSimp, Bool.not_true, Bool.false_and,
    Bool.false_eq_true, if_false] at h
  cases h3 : m.hasModifications with
  | error e => rw [h3] at h; exact Except.noConfusion h
  | ok hmv =>
  rw [h3] at h
  simp only [exceptBindOkSimp, Bool.not_true, Bool.false_and,
    Bool.false_eq_true, if_false] at h
  cases h4 : renderParts (head :: newsParts) ns with
  | error e => rw [h4] at h; exact Except.noConfusion h
  | ok pr =>
  obtain ⟨strs, ns2⟩ := pr
  rw [h4] at h
  simp only [exceptBindOkSimp] at h
  cases h5 : m.oldPartition? with
  | none => rw [h5] at h; exact Except.noConfusion h
  | some old =>
  rw [h5] at h
  simp only [pure_bind] at h
  cases h6 : old.nameOf with
  | error e => rw [h6] at h; exact Except.noConfusion h
  | ok oldName =>
  rw [h6] at h
  simp only [exceptBindOkSimp] at h
  cases h7 : emitReversed tableName news rest ns2 with
  | error e => rw [h7] at h; exact Except.noConfusion h
  | ok tl =>
  rw [h7] at h
  simp only [exceptBindOkSimp] at h
  injection h with h
  rw [← h]
  exact List.cons_ne_nil _ _

/-- C6.  In the intended pipeline (the committed one raises `TypeError`
before deciding anything, `getPending_not_ok`), the decision to emit is
any(New) or any(important Change): when the plan has neither, the
pending-command list is empty, and whenever the plan contains a New partition
the list is non-empty; a final Change's modifications play no role in the
decision. -/
theorem c6_intended_should_run (tableName : String)
    (partitionList : List Partition) (c : List Int) (lifespan : Q) (n : Nat)
    (t : Q) (plan : List Planned) (cmds : List String)
    (hplan : planPartitionChangesIntended partitionList c t lifespan n
      = .ok plan)
    (hcmds : getPendingSqlReorganizePartitionCommandsIntended tableName
        partitionList c lifespan n t = .ok cmds) :
    ((plan.any fun p => p.isNew || (p.isChange && p.imp)) = false → cmds = [])
    ∧ ((plan.any fun p => p.isNew) = true → cmds ≠ []) := by
  unfold getPendingSqlReorganizePartitionCommandsIntended at hcmds
  rw [exceptBindOk] at hcmds
  obtain ⟨a, ha, hrest⟩ := hcmds
  rw [hplan] at ha
  injection ha with ha
  subst ha
  constructor
  · intro hno
    have hsr : shouldRunChanges plan = false := hno
    rw [hsr] at hrest
    simp only [Bool.not_false, if_true] at hrest
    injection hrest with hrest
    exact hrest.symm
  · intro hnew
    obtain ⟨p, hp, hpn⟩ := List.any_eq_true.mp hnew
    have hsr : shouldRunChanges plan = true :=
      List.any_eq_true.mpr ⟨p, hp, by simp [hpn]⟩
    rw [hsr] at hrest
    simp only [Bool.not_true, Bool.false_eq_true, if_false] at hrest
    unfold generateSqlReorganizePartitionCommands at hrest
    rw [exceptBindOk] at hrest
    obtain ⟨⟨modified, news⟩, hcol, hrest⟩ := hrest
    have hpnews : p ∈ news :=
      collectChangesNews_mem_news plan [] [] modified news hcol p hp
        (by simp [Planned.isChange, hpn])
    have hne : news.isEmpty = false := by
      cases news with
      | nil => cases hpnews
      | cons _ _ => rfl
    simp only [] at hrest
    rw [hne] at hrest
    simp only [Bool.false_eq_true, if_false, pure_bind] at hrest
    cases hmod : modified with
    | nil =>
        rw [hmod] at hrest
        exact Except.noConfusion hrest
    | cons m ms =>
        rw [hmod] at hrest
        rw [List.reverse_append, List.reverse_singleton, List.singleton_append]
          at hrest
        exact emitReversed_final_cons _ _ _ _ _ _ hrest

set_option maxRecDepth 100000 in
/-- C6, witness: on the imminent fixture the intended plan contains a New
partition and the pending-command list is non-empty. -/
theorem c6_witness :
    (getPendingSqlReorganizePartitionCommandsIntended "burgers" fixtureBasic
        [50] (Q.ofInt 7) 4 evalTimeImminent).toOption.getD [] ≠ [] := by
  have h := c6_intended_should_run "burgers" fixtureBasic [50] (Q.ofInt 7) 4
    evalTimeImminent
    ((planPartitionChangesIntended fixtureBasic [50] evalTimeImminent
        (Q.ofInt 7) 4).toOption.getD [])
    ((getPendingSqlReorganizePartitionCommandsIntended "burgers" fixtureBasic
        [50] (Q.ofInt 7) 4 evalTimeImminent).toOption.getD [])
    (by decide) (by decide)
  exact h.2 (by decide)


/-! ## Claim C5: what conflict resolution does and does not guarantee -/

theorem bumpTimestamp_post (existing : List (Option Q)) :
    ∀ (fuel : Nat) (p q : Planned), bumpTimestamp existing fuel p = .ok q →
      tsMem q.ts existing = false ∨ exemptFromConflict q = true := by
  intro fuel
  induction fuel with
  | zero => intro p q h; cases h
  | succ n ih =>
      intro p q h
      rw [bumpTimestamp] at h
      by_cases hc : (tsMem p.ts existing && !(exemptFromConflict p)) = true
      · rw [if_pos hc] at h
        cases hts : p.ts with
        | none => rw [hts] at h; cases h
        | some u => rw [hts] at h; exact ih _ _ h
      · rw [if_neg hc] at h
        injection h with h
        subst h
        cases hA : tsMem p.ts existing with
        | false => exact Or.inl rfl
        | true =>
            cases hB : exemptFromConflict p with
            | true => exact Or.inr rfl
            | false => exact absurd (by rw [hA, hB]; decide) hc

theorem resolveConflicts_post (existing : List (Option Q))
    (results out : List Planned) (h : resolveConflicts existing results = .ok out) :
    ∀ q ∈ out, tsMem q.ts existing = false ∨ exemptFromConflict q = true := by
  intro q hq
  have hf := mapM_ok_forall₂ _ results out h
  obtain ⟨p, -, hpq⟩ := forall₂_mem_right hf q hq
  exact bumpTimestamp_post existing _ p q hpq

theorem setAsMaxValue_preserves (p q : Planned) (h : p.setAsMaxValue = .ok q) :
    q.ts = p.ts ∧ q.kind = p.kind := by
  unfold Planned.setAsMaxValue at h
  cases hp : p.pos with
  | none => rw [hp] at h; cases h
  | some l =>
      rw [hp] at h
      injection h with h
      subst h
      exact ⟨rfl, rfl⟩

theorem exemptFromConflict_congr (p q : Planned) (hts : q.ts = p.ts)
    (hk : q.kind = p.kind) : exemptFromConflict q = exemptFromConflict p := by
  unfold exemptFromConflict
  rw [hts, hk]

/-- Supporting fact for claim C5's divergence note: in the intended planner
the step-6 conflict-resolution loop guarantees only that no planned
partition's timestamp equals a pre-existing partition's timestamp, other than
a Change keeping its own old timestamp; planned partitions are not compared
with each other. -/
theorem planIntended_no_conflict_with_existing (partitionList : List Partition)
    (c : List Int) (t lifespan : Q) (n : Nat) (plan : List Planned)
    (hplan : planPartitionChangesIntended partitionList c t lifespan n
      = .ok plan) :
    ∀ p ∈ plan,
      tsMem p.ts (partitionList.map Partition.timestamp) = false
      ∨ exemptFromConflict p = true := by
  unfold planPartitionChangesIntended at hplan
  cases h1 : splitPartitionsAroundPosition partitionList c with
  | error e => rw [h1] at hplan; exact Except.noConfusion hplan
  | ok trip =>
  obtain ⟨filled, active, empty⟩ := trip
  rw [h1] at hplan
  simp only [exceptBindOkSimp] at hplan
  cases he : empty.isEmpty with
  | true => rw [he] at hplan; exact Except.noConfusion hplan
  | false =>
  rw [he] at hplan
  simp only [Bool.false_eq_true, if_false] at hplan
  cases h2 : active.timestamp with
  | none => rw [h2] at hplan; exact Except.noConfusion hplan
  | some ats =>
  rw [h2] at hplan
  simp only [pure_bind] at hplan
  cases h3 : rateRelevantPartitionsIntended filled active c t ats with
  | error e => rw [h3] at hplan; exact Except.noConfusion hplan
  | ok rel =>
  rw [h3] at hplan
  simp only [exceptBindOkSimp] at hplan
  cases h4 : getWeightedPositionIncreasePerDayForPartitions rel with
  | error e => rw [h4] at hplan; exact Except.noConfusion hplan
  | ok rates =>
  rw [h4] at hplan
  simp only [exceptBindOkSimp] at hplan
  cases h5 : empty.foldlM (planStep c rates t lifespan) [mkChange active] with
  | error e => rw [h5] at hplan; exact Except.noConfusion hplan
  | ok afterLoop =>
  rw [h5] at hplan
  simp only [exceptBindOkSimp] at hplan
  cases h6 : topUp rates t lifespan (n + 1) afterLoop with
  | error e => rw [h6] at hplan; exact Except.noConfusion hplan
  | ok afterTopUp =>
  rw [h6] at hplan
  simp only [exceptBindOkSimp] at hplan
  cases h7 : resolveConflicts (partitionList.map Partition.timestamp) afterTopUp with
  | error e => rw [h7] at hplan; exact Except.noConfusion hplan
  | ok resolved =>
  rw [h7] at hplan
  simp only [exceptBindOkSimp] at hplan
  cases h8 : resolved.getLast? with
  | none => rw [h8] at hplan; exact Except.noConfusion hplan
  | some last =>
  rw [h8] at hplan
  simp only [] at hplan
  cases h9 : last.setAsMaxValue with
  | error e => rw [h9] at hplan; exact Except.noConfusion hplan
  | ok last2 =>
  rw [h9] at hplan
  simp only [exceptBindOkSimp] at hplan
  injection hplan with hplan
  subst hplan
  intro p hp
  rcases List.mem_append.mp hp with hp | hp
  · exact resolveConflicts_post _ _ _ h7 p (List.dropLast_subset _ hp)
  · rcases List.mem_singleton.mp hp with rfl
    have hlast : last ∈ resolved := mem_of_getLast?_eq h8
    obtain ⟨hts, hkind⟩ := setAsMaxValue_preserves last p h9
    rcases resolveConflicts_post _ _ _ h7 last hlast with hA | hB
    · left; rw [hts]; exact hA
    · right; rw [exemptFromConflict_congr last p hts hkind]; exact hB

/-! ## Claim C3: the weighted rate computation -/

theorem Q.toRat_eq_zero_iff (a : Q) : a.toRat = 0 ↔ a.num = 0 := by
  rw [Q.toRat, div_eq_zero_iff]
  constructor
  · rintro (h | h)
    · exact_mod_cast h
    · exact absurd h a.den_ne_zero_rat
  · intro h
    left
    exact_mod_cast h

theorem generateWeights_toRat (n : Nat) :
    (generateWeights n).map Q.toRat
      = (List.range n).map (fun k : Nat => (10000 : ℚ) / ((n : ℚ) - (k : ℚ))) := by
  unfold generateWeights
  rw [List.map_map]
  refine List.map_congr_left ?_
  intro k hk
  have hk' : k < n := List.mem_range.mp hk
  have hnum : (Q.ofInt ((n : Int) - (k : Int))).num ≠ 0 := by
    show ((n : Int) - (k : Int)) ≠ 0
    omega
  show ((Q.ofInt 10000).div (Q.ofInt ((n : Int) - (k : Int)))).toRat = _
  rw [Q.toRat_div _ _ hnum, Q.toRat_ofInt, Q.toRat_ofInt]
  push_cast
  ring

theorem qsum_toRat (l : List Q) : (qsum l).toRat = (l.map Q.toRat).sum := by
  unfold qsum
  suffices h : ∀ init : Q, (l.foldl Q.add init).toRat = init.toRat + (l.map Q.toRat).sum by
    simpa using h (Q.ofInt 0)
  induction l with
  | nil => intro init; simp
  | cons x xs ih =>
      intro init
      rw [List.foldl_cons, ih, List.map_cons, List.sum_cons, Q.toRat_add]
      ring

theorem addWeighted_length (s : List Q) : ∀ (v : List Q) (w : Q),
    (addWeighted s v w).length = s.length := by
  induction s with
  | nil => intro v w; cases v <;> rfl
  | cons a s ih =>
      intro v w
      cases v with
      | nil => rfl
      | cons b vs => simp only [addWeighted, List.length_cons, ih]

theorem addWeighted_getD (s : List Q) : ∀ (v : List Q) (w : Q) (i : Nat),
    i < s.length →
    ((addWeighted s v w).getD i (Q.ofInt 0)).toRat
      = (s.getD i (Q.ofInt 0)).toRat + (v.getD i (Q.ofInt 0)).toRat * w.toRat := by
  induction s with
  | nil => intro v w i hi; cases hi
  | cons a s ih =>
      intro v w i hi
      cases v with
      | nil => simp [addWeighted]
      | cons b vs =>
          cases i with
          | zero => simp [addWeighted]
          | succ i =>
              simp only [addWeighted, List.getD_cons_succ]
              exact ih vs w i (by simpa using hi)

theorem foldAddWeighted_length (L : List (List Q × Q)) :
    ∀ s0 : List Q,
      (L.foldl (fun sums prw => addWeighted sums prw.1 prw.2) s0).length
        = s0.length := by
  induction L with
  | nil => intro s0; rfl
  | cons vw L ih =>
      intro s0
      rw [List.foldl_cons, ih, addWeighted_length]

theorem foldAddWeighted_getD (L : List (List Q × Q)) :
    ∀ (s0 : List Q) (i : Nat), i < s0.length →
      ((L.foldl (fun sums prw => addWeighted sums prw.1 prw.2) s0).getD i
          (Q.ofInt 0)).toRat
        = (s0.getD i (Q.ofInt 0)).toRat
          + (L.map fun vw => (vw.1.getD i (Q.ofInt 0)).toRat * vw.2.toRat).sum := by
  induction L with
  | nil => intro s0 i hi; simp
  | cons vw L ih =>
      intro s0 i hi
      rw [List.foldl_cons,
        ih (addWeighted s0 vw.1 vw.2) i (by rw [addWeighted_length]; exact hi),
        addWeighted_getD s0 vw.1 vw.2 i hi, List.map_cons, List.sum_cons]
      ring

/-- The committed per-element division: a single partition with at least one
column divides the zero weight total and raises `ZeroDivisionError`. -/
theorem getWeighted_singleton_pos (p : Partition) (h : 0 < p.numColumns) :
    getWeightedPositionIncreasePerDayForPartitions [p]
      = .error .zeroDivision := by
  unfold getWeightedPositionIncreasePerDayForPartitions
  simp only []
  cases hn : p.numColumns with
  | zero => rw [hn] at h; exact absurd h (lt_irrefl 0)
  | succ k => rfl

/-- The committed per-element division: a single zero-column partition has an
empty `weighted_sums`, so `list(map(lambda x: x / sum(weights), ...))` never
divides and the result is the empty list. -/
theorem getWeighted_singleton_zero (p : Partition) (h : p.numColumns = 0) :
    getWeightedPositionIncreasePerDayForPartitions [p] = .ok [] := by
  unfold getWeightedPositionIncreasePerDayForPartitions
  simp only []
  rw [h]
  rfl

/-- C3, amended.  The weighted rate: weights `10000 / (n - k)` are generated
for all `n` adjacent pairs, dropped pairs included (they contribute a zero
rate but keep their weight in the denominator); each output coordinate is the
weighted sum of the per-pair rates divided by the total weight.  A single
partition with at least one column yields `ZeroDivisionError` (there is no
`EmptyRateInput`); a single zero-column partition instead returns an empty
rate list, because the division happens inside the per-element lambda. -/
theorem c3_amended_weighted_rate (p0 : Partition) (rest : List Partition)
    (posRates : List (List Q)) (r : List Q)
    (hrates : (pairwise (p0 :: rest)).mapM
        (fun pr => getPositionIncreasePerDay pr.1 pr.2) = .ok posRates)
    (hok : getWeightedPositionIncreasePerDayForPartitions (p0 :: rest) = .ok r) :
    (∀ p : Partition, 0 < p.numColumns →
        getWeightedPositionIncreasePerDayForPartitions [p]
          = .error .zeroDivision)
    ∧ (∀ p : Partition, p.numColumns = 0 →
        getWeightedPositionIncreasePerDayForPartitions [p] = .ok [])
    ∧ r.length = p0.numColumns
    ∧ (generateWeights posRates.length).map Q.toRat
        = (List.range posRates.length).map
            (fun k : Nat => (10000 : ℚ) / ((posRates.length : ℚ) - (k : ℚ)))
    ∧ ∀ i, i < r.length →
        ((generateWeights posRates.length).map Q.toRat).sum ≠ 0
        ∧ (r.getD i (Q.ofInt 0)).toRat
          = ((posRates.zip (generateWeights posRates.length)).map
              (fun vw => (vw.1.getD i (Q.ofInt 0)).toRat * vw.2.toRat)).sum
            / ((generateWeights posRates.length).map Q.toRat).sum := by
  unfold getWeightedPositionIncreasePerDayForPartitions at hok
  rw [hrates] at hok
  simp only [exceptBindOkSimp] at hok
  cases hsums : (posRates.zip (generateWeights posRates.length)).foldl
      (fun sums prw => addWeighted sums prw.1 prw.2)
      (List.replicate p0.numColumns (Q.ofInt 0)) with
  | nil =>
      rw [hsums] at hok
      simp only [] at hok
      injection hok with hok
      subst hok
      have hlen0 := foldAddWeighted_length
        (posRates.zip (generateWeights posRates.length))
        (List.replicate p0.numColumns (Q.ofInt 0))
      rw [hsums] at hlen0
      simp only [List.length_nil, List.length_replicate] at hlen0
      refine ⟨fun p hp => getWeighted_singleton_pos p hp,
        fun p hp => getWeighted_singleton_zero p hp,
        by simpa using hlen0, generateWeights_toRat _, ?_⟩
      intro i hi
      exact absurd hi (Nat.not_lt_zero i)
  | cons a l =>
      rw [hsums] at hok
      simp only [] at hok
      by_cases hz : (qsum (generateWeights posRates.length)).num = 0
      · rw [if_pos hz] at hok
        exact Except.noConfusion hok
      · rw [if_neg hz] at hok
        injection hok with hok
        have hwnz : ((generateWeights posRates.length).map Q.toRat).sum ≠ 0 := by
          rw [← qsum_toRat]
          intro h0
          exact hz ((Q.toRat_eq_zero_iff _).mp h0)
        have hal : (a :: l).length = p0.numColumns := by
          have hlen1 := foldAddWeighted_length
            (posRates.zip (generateWeights posRates.length))
            (List.replicate p0.numColumns (Q.ofInt 0))
          rw [hsums] at hlen1
          simpa using hlen1
        refine ⟨fun p hp => getWeighted_singleton_pos p hp,
          fun p hp => getWeighted_singleton_zero p hp, ?_,
          generateWeights_toRat _, ?_⟩
        · rw [← hok, List.length_map, hal]
        · intro i hi
          refine ⟨hwnz, ?_⟩
          have hi' : i < p0.numColumns := by
            rw [← hok, List.length_map, hal] at hi
            exact hi
          have hgd : r.getD i (Q.ofInt 0)
              = (((posRates.zip (generateWeights posRates.length)).foldl
                  (fun sums prw => addWeighted sums prw.1 prw.2)
                  (List.replicate p0.numColumns (Q.ofInt 0))).getD i
                  (Q.ofInt 0)).div
                (qsum (generateWeights posRates.length)) := by
            rw [← hok, hsums]
            rw [List.getD_eq_getElem _ _ (by rw [List.length_map, hal]; exact hi'),
              List.getElem_map,
              List.getD_eq_getElem _ _ (by rw [hal]; exact hi')]
          rw [hgd, Q.toRat_div _ _ hz, qsum_toRat,
            foldAddWeighted_getD _ _ i (by rw [List.length_replicate]; exact hi')]
          rw [List.getD_eq_getElem _ _ (by rw [List.length_replicate]; exact hi')]
          simp [List.getElem_replicate]

set_option maxRecDepth 10000 in
/-- C3, witness: a two-partition list produces one rate per column. -/
theorem c3_amended_witness :
    ((getWeightedPositionIncreasePerDayForPartitions
        [Partition.position (.dated 18627) [100],
         Partition.position (.dated 18629) [200]]).toOption.getD []).length = 1 := by
  have h := c3_amended_weighted_rate (Partition.position (.dated 18627) [100])
    [Partition.position (.dated 18629) [200]]
    (((pairwise [Partition.position (.dated 18627) [100],
        Partition.position (.dated 18629) [200]]).mapM
      (fun pr => getPositionIncreasePerDay pr.1 pr.2)).toOption.getD [])
    ((getWeightedPositionIncreasePerDayForPartitions
        [Partition.position (.dated 18627) [100],
         Partition.position (.dated 18629) [200]]).toOption.getD [])
    (by decide) (by decide)
  exact h.2.2.1


/-! ## Claim C8: the drop planner -/

theorem dropWalk_spec (lookup : Partition → Except Err Q) (c : List Int)
    (now retention : Q) :
    ∀ (L : List (Partition × Partition)) (entries : List DropInfo)
      (droppable : List Partition),
      dropWalk lookup c now retention L = .ok (entries, droppable) →
      specDroppables lookup c now retention L = .ok droppable := by
  intro L
  induction L with
  | nil =>
      intro entries droppable h
      injection h with h
      injection h with h1 h2
      subst h2
      rfl
  | cons pq rest ih =>
      obtain ⟨p, q⟩ := pq
      intro entries droppable h
      cases q with
      | maxValue nm k =>
          rw [dropWalk.eq_def] at h
          simp only [] at h
          cases hge : partGePos (Partition.maxValue nm k) c with
          | error e => rw [hge] at h; exact Except.noConfusion h
          | ok ge =>
          rw [hge] at h
          cases ge with
          | true =>
              replace h : (Except.ok ([], []) :
                  Except Err (List DropInfo × List Partition)) = .ok (entries, droppable) := h
              injection h with h
              injection h with h1 h2
              subst h2
              rw [specDroppables, hge]
              rfl
          | false =>
              replace h : (Except.ok ([], []) :
                  Except Err (List DropInfo × List Partition)) = .ok (entries, droppable) := h
              injection h with h
              injection h with h1 h2
              subst h2
              rw [specDroppables, hge]
              rfl
      | position nm pos =>
          rw [dropWalk.eq_def] at h
          simp only [] at h
          cases hge : partGePos (Partition.position nm pos) c with
          | error e => rw [hge] at h; exact Except.noConfusion h
          | ok ge =>
          rw [hge] at h
          cases ge with
          | true =>
              replace h : (Except.ok ([], []) :
                  Except Err (List DropInfo × List Partition)) = .ok (entries, droppable) := h
              injection h with h
              injection h with h1 h2
              subst h2
              rw [specDroppables, hge]
              rfl
          | false =>
          cases hpp : p.posOf with
          | error e => rw [hpp] at h; exact Except.noConfusion h
          | ok ppos =>
          rw [hpp] at h
          cases hpn : p.nameOf with
          | error e => rw [hpn] at h; exact Except.noConfusion h
          | ok pname =>
          rw [hpn] at h
          cases hlp : lookup p with
          | error e =>
              rw [hlp] at h
              simp only [Partition.posOf, exceptBindOkSimp, exceptBindErrSimp,
                pure_bind] at h
              by_cases he : e = Err.noExactTime
              · subst he
                cases hrw : dropWalk lookup c now retention rest with
                | error e2 => rw [hrw] at h; exact Except.noConfusion h
                | ok pr =>
                obtain ⟨e2, d2⟩ := pr
                rw [hrw] at h
                injection h with h
                injection h with h1 h2
                subst h2
                rw [specDroppables, hge, hlp, ih e2 d2 hrw]
                rfl
              · rw [if_neg he] at h
                exact Except.noConfusion h
          | ok startTime =>
              rw [hlp] at h
              cases hlq : lookup (Partition.position nm pos) with
              | error e =>
                  rw [hlq] at h
                  simp only [Partition.posOf, exceptBindOkSimp, exceptBindErrSimp,
                    pure_bind] at h
                  by_cases he : e = Err.noExactTime
                  · subst he
                    cases hrw : dropWalk lookup c now retention rest with
                    | error e2 => rw [hrw] at h; exact Except.noConfusion h
                    | ok pr =>
                    obtain ⟨e2, d2⟩ := pr
                    rw [hrw] at h
                    injection h with h
                    injection h with h1 h2
                    subst h2
                    rw [specDroppables, hge, hlp, hlq, ih e2 d2 hrw]
                    rfl
                  · rw [if_neg he] at h
                    exact Except.noConfusion h
              | ok endTime =>
                  rw [hlq] at h
                  simp only [Partition.posOf, exceptBindOkSimp, exceptBindErrSimp,
                    pure_bind] at h
                  by_cases hret : retention < now.sub endTime
                  · rw [if_pos hret] at h
                    cases hrw : dropWalk lookup c now retention rest with
                    | error e2 => rw [hrw] at h; exact Except.noConfusion h
                    | ok pr =>
                    obtain ⟨e2, d2⟩ := pr
                    rw [hrw] at h
                    injection h with h
                    injection h with h1 h2
                    subst h2
                    rw [specDroppables, hge, hlp, hlq, ih e2 d2 hrw]
                    simp only [exceptBindOkSimp, pure_bind]
                    rw [decide_eq_true hret]
                    rfl
                  · rw [if_neg hret] at h
                    cases hrw : dropWalk lookup c now retention rest with
                    | error e2 => rw [hrw] at h; exact Except.noConfusion h
                    | ok pr =>
                    obtain ⟨e2, d2⟩ := pr
                    rw [hrw] at h
                    injection h with h
                    injection h with h1 h2
                    subst h2
                    rw [specDroppables, hge, hlp, hlq, ih e2 d2 hrw]
                    simp only [exceptBindOkSimp, pure_bind]
                    rw [decide_eq_false hret]
                    rfl
      | instant ts pos =>
          rw [dropWalk.eq_def] at h
          simp only [] at h
          cases hge : partGePos (Partition.instant ts pos) c with
          | error e => rw [hge] at h; exact Except.noConfusion h
          | ok ge =>
          rw [hge] at h
          cases ge with
          | true =>
              replace h : (Except.ok ([], []) :
                  Except Err (List DropInfo × List Partition)) = .ok (entries, droppable) := h
              injection h with h
              injection h with h1 h2
              subst h2
              rw [specDroppables, hge]
              rfl
          | false =>
          cases hpp : p.posOf with
          | error e => rw [hpp] at h; exact Except.noConfusion h
          | ok ppos =>
          rw [hpp] at h
          cases hpn : p.nameOf with
          | error e => rw [hpn] at h; exact Except.noConfusion h
          | ok pname =>
          rw [hpn] at h
          cases hlp : lookup p with
          | error e =>
              rw [hlp] at h
              simp only [Partition.posOf, exceptBindOkSimp, exceptBindErrSimp,
                pure_bind] at h
              by_cases he : e = Err.noExactTime
              · subst he
                cases hrw : dropWalk lookup c now retention rest with
                | error e2 => rw [hrw] at h; exact Except.noConfusion h
                | ok pr =>
                obtain ⟨e2, d2⟩ := pr
                rw [hrw] at h
                injection h with h
                injection h with h1 h2
                subst h2
                rw [specDroppables, hge, hlp, ih e2 d2 hrw]
                rfl
              · rw [if_neg he] at h
                exact Except.noConfusion h
          | ok startTime =>
              rw [hlp] at h
              cases hlq : lookup (Partition.instant ts pos) with
              | error e =>
                  rw [hlq] at h
                  simp only [Partition.posOf, exceptBindOkSimp, exceptBindErrSimp,
                    pure_bind] at h
                  by_cases he : e = Err.noExactTime
                  · subst he
                    cases hrw : dropWalk lookup c now retention rest with
                    | error e2 => rw [hrw] at h; exact Except.noConfusion h
                    | ok pr =>
                    obtain ⟨e2, d2⟩ := pr
                    rw [hrw] at h
                    injection h with h
                    injection h with h1 h2
                    subst h2
                    rw [specDroppables, hge, hlp, hlq, ih e2 d2 hrw]
                    rfl
                  · rw [if_neg he] at h
                    exact Except.noConfusion h
              | ok endTime =>
                  rw [hlq] at h
                  simp only [Partition.posOf, exceptBindOkSimp, exceptBindErrSimp,
                    pure_bind] at h
                  by_cases hret : retention < now.sub endTime
                  · rw [if_pos hret] at h
                    cases hrw : dropWalk lookup c now retention rest with
                    | error e2 => rw [hrw] at h; exact Except.noConfusion h
                    | ok pr =>
                    obtain ⟨e2, d2⟩ := pr
                    rw [hrw] at h
                    injection h with h
                    injection h with h1 h2
                    subst h2
                    rw [specDroppables, hge, hlp, hlq, ih e2 d2 hrw]
                    simp only [exceptBindOkSimp, pure_bind]
                    rw [decide_eq_true hret]
                    rfl
                  · rw [if_neg hret] at h
                    cases hrw : dropWalk lookup c now retention rest with
                    | error e2 => rw [hrw] at h; exact Except.noConfusion h
                    | ok pr =>
                    obtain ⟨e2, d2⟩ := pr
                    rw [hrw] at h
                    injection h with h
                    injection h with h1 h2
                    subst h2
                    rw [specDroppables, hge, hlp, hlq, ih e2 d2 hrw]
                    simp only [exceptBindOkSimp, pure_bind]
                    rw [decide_eq_false hret]
                    rfl

/-- C8.  The drop planner: the walk over adjacent pairs selects exactly the
partitions the specification describes (stop at the first successor at or
past the current position or at the Tail; otherwise the predecessor is
droppable iff a lookup fails with `NoExactTime` or the successor's age exceeds
the retention period); the droppable partitions are emitted as a single
`ALTER TABLE ... DROP PARTITION IF EXISTS` statement, and a table without a
retention period is rejected. -/
theorem c8_drop_planner (lookup : Partition → Except Err Q)
    (partitions : List Partition) (c : List Int) (now retention : Q)
    (tableName : String) (res : DropResults)
    (hok : getDroppablePartitions lookup partitions c now (some retention)
        tableName = .ok res) :
    specDroppables lookup c now retention (pairwise partitions)
        = .ok res.droppable
    ∧ (res.droppable = [] → res.dropQuery = none)
    ∧ (res.droppable ≠ [] →
        ∃ stmt, dropStatement tableName res.droppable = .ok stmt
          ∧ res.dropQuery = some stmt)
    ∧ getDroppablePartitions lookup partitions c now none tableName
        = .error .valueError := by
  unfold getDroppablePartitions at hok
  simp only [] at hok
  by_cases hbeq : retention.beq (Q.ofInt 0) = true
  · rw [hbeq] at hok
    exact Except.noConfusion hok
  · rw [Bool.not_eq_true] at hbeq
    rw [hbeq] at hok
    cases hemp : partitions.isEmpty with
    | true =>
        rw [hemp] at hok
        injection hok with hok
        subst hok
        have hpe : partitions = [] := List.isEmpty_iff.mp hemp
        subst hpe
        exact ⟨rfl, fun _ => rfl, fun hne => absurd rfl hne, rfl⟩
    | false =>
        rw [hemp] at hok
        simp only [Bool.false_eq_true, if_false, pure_bind] at hok
        cases hdw : dropWalk lookup c now retention (pairwise partitions) with
        | error e => rw [hdw] at hok; exact Except.noConfusion hok
        | ok pr =>
        obtain ⟨entries, droppable⟩ := pr
        rw [hdw] at hok
        simp only [exceptBindOkSimp] at hok
        cases hde : droppable.isEmpty with
        | true =>
            rw [hde] at hok
            injection hok with hok
            subst hok
            have hdnil : droppable = [] := List.isEmpty_iff.mp hde
            refine ⟨dropWalk_spec lookup c now retention _ entries droppable hdw,
              fun _ => rfl, fun hne => absurd hdnil hne, rfl⟩
        | false =>
            rw [hde] at hok
            cases hds : dropStatement tableName droppable with
            | error e => rw [hds] at hok; exact Except.noConfusion hok
            | ok stmt =>
            rw [hds] at hok
            simp only [exceptBindOkSimp] at hok
            injection hok with hok
            subst hok
            refine ⟨dropWalk_spec lookup c now retention _ entries droppable hdw,
              ?_, fun _ => ⟨stmt, hds, rfl⟩, rfl⟩
            intro hnil
            replace hnil : droppable = [] := hnil
            rw [hnil] at hde
            exact Bool.noConfusion hde

set_option maxRecDepth 10000 in
/-- C8, witness: with a 140-day retention at day 18931 the walk drops the two
oldest partitions and stops at the partition holding the current position. -/
theorem c8_witness :
    specDroppables fixtureDropLookup [400] (Q.ofInt 18931) (Q.ofInt 140)
        (pairwise fixtureDropParts)
      = .ok ((getDroppablePartitions fixtureDropLookup fixtureDropParts [400]
          (Q.ofInt 18931) (some (Q.ofInt 140)) "burgers").toOption.getD
            ⟨[], [], none⟩).droppable := by
  have h := c8_drop_planner fixtureDropLookup fixtureDropParts [400]
    (Q.ofInt 18931) (Q.ofInt 140) "burgers"
    ((getDroppablePartitions fixtureDropLookup fixtureDropParts [400]
        (Q.ofInt 18931) (some (Q.ofInt 140)) "burgers").toOption.getD
      ⟨[], [], none⟩)
    (by decide)
  exact h.1


/-! ## Claim C4: the timestamp given to the Tail Change -/

theorem ofInt_floor_le (x : Q) : Q.ofInt x.floor ≤ x := by
  rw [Q.le_iff_toRat, Q.toRat_ofInt, Q.floor_eq_floor_toRat]
  exact Int.floor_le _

theorem Q.floor_ofInt (n : Int) : (Q.ofInt n).floor = n := by
  show n.fdiv 1 = n
  rw [Int.fdiv_eq_ediv _ (by omega)]
  exact Int.ediv_one n

theorem ofInt_floor_le_floorHour (x : Q) : Q.ofInt x.floor ≤ floorHour x := by
  have h := ofInt_floor_le (floorHour x)
  rw [floor_floorHour] at h
  exact h

theorem setPosition_ts (p : Planned) (l : List Int) (q : Planned)
    (h : p.setPosition l = .ok q) : q.ts = p.ts := by
  unfold Planned.setPosition at h
  cases hk : p.numCols with
  | none =>
      rw [hk] at h
      injection h with h
      subst h
      rfl
  | some k =>
      rw [hk] at h
      simp only [] at h
      by_cases hl : l.length ≠ k
      · rw [if_pos hl] at h
        cases h
      · rw [if_neg hl] at h
        injection h with h
        subst h
        rfl

theorem predictForwardTime_lb (cur : List Int) (endPos? : Option (List Int))
    (rates : List Q) (t sof : Q)
    (h : predictForwardTime cur endPos? rates t = .ok sof) :
    Q.ofInt t.floor ≤ sof := by
  unfold predictForwardTime at h
  cases endPos? with
  | none => cases h
  | some endPos =>
  simp only [] at h
  by_cases h1 : ¬(cur.length = endPos.length ∧ endPos.length = rates.length)
  · rw [if_pos h1] at h
    cases h
  · rw [if_neg h1] at h
    cases h2 : rates.any (fun r => r ≤ Q.ofInt 0) with
    | true => rw [h2] at h; exact Except.noConfusion h
    | false =>
    rw [h2] at h
    simp only [Bool.false_eq_true, if_false] at h
    cases hm : maxQ? ((endPos.zip (cur.zip rates)).map
        fun x => (Q.ofInt (x.1 - x.2.1)).div x.2.2) with
    | none => rw [hm] at h; exact Except.noConfusion h
    | some m =>
    rw [hm] at h
    simp only [] at h
    by_cases h3 : m < Q.ofInt 0
    · rw [if_pos h3] at h
      cases h
    · rw [if_neg h3] at h
      injection h with h
      subst h
      have hm0 : Q.ofInt 0 ≤ m := by
        rw [Q.le_iff_toRat]
        rw [Q.lt_iff_toRat] at h3
        simpa using le_of_not_lt h3
      exact Q.le_trans' (ofInt_floor_le_floorHour t)
        (floorHour_mono (Q.le_add_of_nonneg_right hm0))

/-- C4.  The Change created for the Tail partition carries, at its creation
in the planner's walk (`planStep`, the per-empty-partition loop body, which
the committed `TypeError` at step 3 prevents from ever running), timestamp
`min(nominal, startOfFill)` floored to the start of its day (hour and minute
zeroed, seconds preserved), where `nominal` is
`_calculate_start_time(last.timestamp, evaluation_time, lifespan)`; the
stored timestamp is never earlier than the start of the evaluation time's
day. -/
theorem c4_tail_change_timestamp (c : List Int) (rates : List Q)
    (t lifespan : Q) (results out : List Planned) (nm : PartName) (k : Nat)
    (hstep : planStep c rates t lifespan results (Partition.maxValue nm k)
      = .ok out) :
    ∃ lastChanged lts sof last',
      results.getLast? = some lastChanged
      ∧ lastChanged.ts = some lts
      ∧ predictForwardTime c lastChanged.pos rates t = .ok sof
      ∧ out = results ++ [last']
      ∧ last'.ts = some (floorDayKeepSub
          (Q.min (calculateStartTime lts t lifespan) sof))
      ∧ Q.ofInt t.floor
          ≤ floorDayKeepSub (Q.min (calculateStartTime lts t lifespan) sof) := by
  unfold planStep at hstep
  cases hlast : results.getLast? with
  | none => rw [hlast] at hstep; exact Except.noConfusion hstep
  | some lastChanged =>
  rw [hlast] at hstep
  simp only [] at hstep
  cases hsof : predictForwardTime c lastChanged.pos rates t with
  | error e => rw [hsof] at hstep; exact Except.noConfusion hstep
  | ok sof =>
  rw [hsof] at hstep
  simp only [exceptBindOkSimp] at hstep
  cases hlts : lastChanged.ts with
  | none => rw [hlts] at hstep; exact Except.noConfusion hstep
  | some lts =>
  rw [hlts] at hstep
  simp only [pure_bind] at hstep
  cases hlp : lastChanged.pos with
  | none => rw [hlp] at hstep; exact Except.noConfusion hstep
  | some lp =>
  rw [hlp] at hstep
  simp only [Partition.posAndTs] at hstep
  cases hpf : predictForwardPosition lp rates lifespan with
  | error e => rw [hpf] at hstep; exact Except.noConfusion hstep
  | ok newPos =>
  rw [hpf] at hstep
  simp only [exceptBindOkSimp, pure_bind] at hstep
  cases hsp : ((mkChange (Partition.maxValue nm k)).setTimestamp
      (Q.min (calculateStartTime lts t lifespan) sof)).setPosition newPos with
  | error e => rw [hsp] at hstep; exact Except.noConfusion hstep
  | ok last2 =>
  rw [hsp] at hstep
  simp only [exceptBindOkSimp] at hstep
  injection hstep with hstep
  refine ⟨lastChanged, lts, sof, last2, rfl, hlts, hsof, hstep.symm, ?_, ?_⟩
  · rw [setPosition_ts _ _ _ hsp]
    rfl
  · have hnomb : Q.ofInt t.floor ≤ calculateStartTime lts t lifespan := by
      unfold calculateStartTime
      simp only []
      by_cases hc : (lts.add lifespan) < t
      · rw [if_pos hc]
        exact ofInt_floor_le t
      · rw [if_neg hc]
        have hts : t ≤ lts.add lifespan := by
          rw [Q.le_iff_toRat]
          rw [Q.lt_iff_toRat] at hc
          exact le_of_not_lt hc
        exact Q.le_trans' (ofInt_floor_le_floorHour t) (floorHour_mono hts)
    have hsofb : Q.ofInt t.floor ≤ sof := predictForwardTime_lb _ _ _ _ _ hsof
    have hminb : Q.ofInt t.floor
        ≤ Q.min (calculateStartTime lts t lifespan) sof := Q.le_min hnomb hsofb
    have hfl : t.floor ≤ (Q.min (calculateStartTime lts t lifespan) sof).floor := by
      have h2 := Q.floor_mono hminb
      rw [Q.floor_ofInt] at h2
      exact h2
    exact Q.le_trans' (Q.ofInt_le_ofInt hfl) (ofInt_floor_le_floorDayKeepSub _)

set_option maxRecDepth 10000 in
/-- C4, witness: one concrete Tail step, with the evaluation-day lower bound. -/
theorem c4_witness :
    Q.ofInt ((Q.ofInt 18628).floor)
      ≤ floorDayKeepSub (Q.min
          (calculateStartTime (Q.ofInt 18627) (Q.ofInt 18628) (Q.ofInt 7))
          ((predictForwardTime [50] (some [100]) [Q.ofInt 10]
              (Q.ofInt 18628)).toOption.getD (Q.ofInt 0))) := by
  have h := c4_tail_change_timestamp [50] [Q.ofInt 10] (Q.ofInt 18628)
    (Q.ofInt 7) [mkChange (Partition.position (.dated 18627) [100])]
    ((planStep [50] [Q.ofInt 10] (Q.ofInt 18628) (Q.ofInt 7)
        [mkChange (Partition.position (.dated 18627) [100])]
        (Partition.maxValue (.anon 0) 1)).toOption.getD [])
    (.anon 0) 1 (by decide)
  obtain ⟨lastChanged, lts, sof, last2, hlast, hlts, hsof, -, -, hbound⟩ := h
  have hlc : mkChange (Partition.position (.dated 18627) [100]) = lastChanged := by
    injection hlast
  subst hlc
  have hlts2 : Q.ofInt 18627 = lts := by injection hlts
  subst hlts2
  replace hsof : predictForwardTime [50] (some [100]) [Q.ofInt 10]
      (Q.ofInt 18628) = .ok sof := hsof
  have hsofd : (predictForwardTime [50] (some [100]) [Q.ofInt 10]
      (Q.ofInt 18628)).toOption.getD (Q.ofInt 0) = sof := by
    rw [hsof]
    rfl
  rw [hsofd]
  exact hbound


/-! ## Claim C1: groundwork for the no-News-on-replan theorem -/

theorem posLtList_false_GeC (pos c : List Int)
    (h : posLtList pos c = .ok false) : GeC c pos := by
  unfold posLtList at h
  by_cases hc : (c.isEmpty || (pos.length != c.length)) = true
  · rw [if_pos hc] at h; cases h
  · rw [if_neg hc] at h
    injection h with h
    simp only [Bool.or_eq_true, not_or, Bool.not_eq_true, bne_eq_false_iff_eq] at hc
    rw [List.any_eq_false] at h
    rw [GeC, List.forall₂_iff_zip]
    constructor
    · exact hc.2.symm
    · intro a b hab
      have hmem : (b, a) ∈ pos.zip c := by
        have hz := List.zip_swap c pos
        rw [← hz]
        exact List.mem_map_of_mem _ hab
      have h2 := h (b, a) hmem
      simp only [decide_eq_true_eq] at h2
      omega

theorem posLtList_false_of_GeC (pos c : List Int) (hge : GeC c pos)
    (hc : c ≠ []) : posLtList pos c = .ok false := by
  have hlen : c.length = pos.length := List.Forall₂.length_eq hge
  unfold posLtList
  rw [if_neg (by simp [List.isEmpty_iff, hc, hlen])]
  congr 1
  rw [List.any_eq_false]
  intro pr hpr
  obtain ⟨a, b⟩ := pr
  have hmem : (b, a) ∈ c.zip pos := by
    have hz := List.zip_swap pos c
    rw [← hz]
    exact List.mem_map_of_mem _ hpr
  have hle : b ≤ a := (List.forall₂_iff_zip.mp hge).2 hmem
  simp only [decide_eq_true_eq]
  omega

theorem GeC_trans {c l l2 : List Int} (h1 : GeC c l)
    (h2 : List.Forall₂ (· ≤ ·) l l2) : GeC c l2 := by
  rw [GeC] at *
  induction h2 generalizing c with
  | nil =>
      cases h1
      exact .nil
  | cons hab htail ih =>
      cases h1 with
      | cons hca hct => exact .cons (le_trans hca hab) (ih hct)


theorem predictForwardPosition_post (cur : List Int) (rates : List Q) (dur : Q)
    (out : List Int) (h : predictForwardPosition cur rates dur = .ok out) :
    List.Forall₂ (· ≤ ·) cur out := by
  unfold predictForwardPosition at h
  by_cases h1 : cur.length ≠ rates.length
  · rw [if_pos h1] at h; cases h
  · rw [if_neg h1] at h
    cases h2 : rates.any (fun r => r < Q.ofInt 0) with
    | true => rw [h2] at h; exact Except.noConfusion h
    | false =>
    rw [h2] at h
    simp only [Bool.false_eq_true, if_false] at h
    cases h3 : (cur.zip ((cur.zip (rates.map fun r => r.mul dur)).map
        fun pi => pyTrunc ((Q.ofInt pi.1).add pi.2))).all (fun pn => pn.1 ≤ pn.2) with
    | false => rw [h3] at h; exact Except.noConfusion h
    | true =>
        rw [h3] at h
        injection h with h
        subst h
        push_neg at h1
        rw [List.forall₂_iff_zip]
        constructor
        · simp [List.length_zip, h1]
        · intro a b hab
          have h4 := List.all_eq_true.mp h3 (a, b) hab
          simpa using h4

theorem predictForwardTime_cur_ne (cur : List Int) (endPos? : Option (List Int))
    (rates : List Q) (t sof : Q)
    (h : predictForwardTime cur endPos? rates t = .ok sof) : cur ≠ [] := by
  unfold predictForwardTime at h
  cases endPos? with
  | none => cases h
  | some endPos =>
  simp only [] at h
  by_cases h1 : ¬(cur.length = endPos.length ∧ endPos.length = rates.length)
  · rw [if_pos h1] at h; cases h
  · rw [if_neg h1] at h
    cases h2 : rates.any (fun r => r ≤ Q.ofInt 0) with
    | true => rw [h2] at h; exact Except.noConfusion h
    | false =>
    rw [h2] at h
    simp only [Bool.false_eq_true, if_false] at h
    cases hm : maxQ? ((endPos.zip (cur.zip rates)).map
        fun x => (Q.ofInt (x.1 - x.2.1)).div x.2.2) with
    | none => rw [hm] at h; exact Except.noConfusion h
    | some m =>
        push_neg at h1
        intro hnil
        subst hnil
        have hep : endPos = [] := by
          have := h1.1
          simpa [List.length_eq_zero] using this.symm
        subst hep
        cases hm

theorem mkChange_inv (c : List Int) (old : Partition)
    (hlt : partLtPos old c = .ok false) : PlannedInv c (mkChange old) := by
  constructor
  · cases old with
    | position nm pos =>
        exact Or.inl ⟨pos, rfl, posLtList_false_GeC pos c hlt⟩
    | instant ts pos =>
        exact Or.inl ⟨pos, rfl, posLtList_false_GeC pos c hlt⟩
    | maxValue nm k =>
        right
        refine ⟨rfl, ?_⟩
        unfold partLtPos at hlt
        simp only [] at hlt
        by_cases hk : k ≠ c.length
        · rw [if_pos hk] at hlt; cases hlt
        · push_neg at hk
          show some k = some c.length
          rw [hk]
  · intro old2 oldpos hk
    injection hk with h1 h2
    subst h1
    exact hlt

theorem PlannedInv_of_fields {c : List Int} {p q : Planned}
    (hp : PlannedInv c p) (hpos : q.pos = p.pos) (hnc : q.numCols = p.numCols)
    (hk : q.kind = p.kind) : PlannedInv c q := by
  obtain ⟨hdis, hold⟩ := hp
  constructor
  · rw [hpos, hnc]
    exact hdis
  · intro old oldpos hkk
    rw [hk] at hkk
    exact hold old oldpos hkk

theorem setPosition_inv (c : List Int) (p : Planned) (l : List Int) (q : Planned)
    (h : p.setPosition l = .ok q) (hge : GeC c l)
    (hold : ∀ old oldpos, p.kind = .change old oldpos → partLtPos old c = .ok false) :
    PlannedInv c q := by
  unfold Planned.setPosition at h
  cases hk : p.numCols with
  | none =>
      rw [hk] at h
      injection h with h
      subst h
      exact ⟨Or.inl ⟨l, rfl, hge⟩, hold⟩
  | some k =>
      rw [hk] at h
      simp only [] at h
      by_cases hl : l.length ≠ k
      · rw [if_pos hl] at h; cases h
      · rw [if_neg hl] at h
        injection h with h
        subst h
        exact ⟨Or.inl ⟨l, rfl, hge⟩, hold⟩

theorem setAsMaxValue_inv (c : List Int) (p q : Planned)
    (hp : PlannedInv c p) (h : p.setAsMaxValue = .ok q) : PlannedInv c q := by
  unfold Planned.setAsMaxValue at h
  cases hpos : p.pos with
  | none => rw [hpos] at h; cases h
  | some l =>
      rw [hpos] at h
      injection h with h
      subst h
      obtain ⟨hdis, hold⟩ := hp
      refine ⟨Or.inr ⟨rfl, ?_⟩, hold⟩
      rcases hdis with ⟨l2, hl2, hge⟩ | ⟨hnone, -⟩
      · rw [hpos] at hl2
        injection hl2 with hl2
        subst hl2
        show some l.length = some c.length
        rw [List.Forall₂.length_eq hge]
      · rw [hpos] at hnone
        cases hnone

theorem bumpTimestamp_fields (existing : List (Option Q)) :
    ∀ (fuel : Nat) (p q : Planned), bumpTimestamp existing fuel p = .ok q →
      q.pos = p.pos ∧ q.numCols = p.numCols ∧ q.kind = p.kind := by
  intro fuel
  induction fuel with
  | zero => intro p q h; cases h
  | succ n ih =>
      intro p q h
      rw [bumpTimestamp] at h
      by_cases hc : (tsMem p.ts existing && !(exemptFromConflict p)) = true
      · rw [if_pos hc] at h
        cases hts : p.ts with
        | none => rw [hts] at h; cases h
        | some u =>
            rw [hts] at h
            simp only [] at h
            have h2 := ih _ _ h
            exact h2
      · rw [if_neg hc] at h
        injection h with h
        subst h
        exact ⟨rfl, rfl, rfl⟩

theorem asPartition_ltFalse (c : List Int) (p : Planned) (part : Partition)
    (hc : c ≠ []) (hp : PlannedInv c p) (h : p.asPartition = .ok part) :
    partLtPos part c = .ok false := by
  unfold Planned.asPartition at h
  cases hts : p.ts with
  | none => rw [hts] at h; cases h
  | some ti =>
  rw [hts] at h
  simp only [] at h
  cases hpos : p.pos with
  | some l =>
      rw [hpos] at h
      injection h with h
      subst h
      obtain ⟨hdis, -⟩ := hp
      rcases hdis with ⟨l2, hl2, hge⟩ | ⟨hnone, -⟩
      · rw [hpos] at hl2
        injection hl2 with hl2
        subst hl2
        exact posLtList_false_of_GeC l c hge hc
      · rw [hpos] at hnone
        cases hnone
  | none =>
      rw [hpos] at h
      simp only [] at h
      cases hnc : p.numCols with
      | none => rw [hnc] at h; cases h
      | some k =>
          rw [hnc] at h
          injection h with h
          subst h
          obtain ⟨hdis, -⟩ := hp
          rcases hdis with ⟨l2, hl2, -⟩ | ⟨-, hk⟩
          · rw [hpos] at hl2
            cases hl2
          · rw [hnc] at hk
            injection hk with hk
            simp [partLtPos, hk]


theorem splitLtGe_ge_false (c : List Int) :
    ∀ (L ls ge : List Partition), splitLtGe c L = .ok (ls, ge) →
      ∀ p ∈ ge, partLtPos p c = .ok false := by
  intro L
  induction L with
  | nil =>
      intro ls ge h p hp
      injection h with h
      injection h with h1 h2
      subst h2
      cases hp
  | cons q rest ih =>
      intro ls ge h p hp
      rw [splitLtGe] at h
      cases hb : partLtPos q c with
      | error e => rw [hb] at h; exact Except.noConfusion h
      | ok b =>
      rw [hb] at h
      cases hsr : splitLtGe c rest with
      | error e => rw [hsr] at h; exact Except.noConfusion h
      | ok pr =>
      obtain ⟨ls2, ge2⟩ := pr
      rw [hsr] at h
      cases b with
      | true =>
          replace h : (Except.ok (q :: ls2, ge2) :
              Except Err (List Partition × List Partition)) = .ok (ls, ge) := h
          injection h with h
          injection h with h1 h2
          subst h2
          exact ih ls2 ge2 hsr p hp
      | false =>
          replace h : (Except.ok (ls2, q :: ge2) :
              Except Err (List Partition × List Partition)) = .ok (ls, ge) := h
          injection h with h
          injection h with h1 h2
          subst h2
          rcases List.mem_cons.mp hp with rfl | hp
          · exact hb
          · exact ih ls2 ge2 hsr p hp

theorem splitLtGe_of_all_false (c : List Int) :
    ∀ G : List Partition, (∀ p ∈ G, partLtPos p c = .ok false) →
      splitLtGe c G = .ok ([], G) := by
  intro G
  induction G with
  | nil => intro _; rfl
  | cons q rest ih =>
      intro h
      rw [splitLtGe, h q (List.mem_cons_self _ _),
        ih fun p hp => h p (List.mem_cons_of_mem _ hp)]
      rfl

theorem splitLtGe_ge_lb (c : List Int) (G : List Partition)
    (hG : ∀ p ∈ G, partLtPos p c = .ok false) :
    ∀ (L1 ls ge : List Partition), splitLtGe c (L1 ++ G) = .ok (ls, ge) →
      G.length ≤ ge.length := by
  intro L1
  induction L1 with
  | nil =>
      intro ls ge h
      rw [List.nil_append, splitLtGe_of_all_false c G hG] at h
      injection h with h
      injection h with h1 h2
      subst h2
      exact le_refl _
  | cons q rest ih =>
      intro ls ge h
      rw [List.cons_append, splitLtGe] at h
      cases hb : partLtPos q c with
      | error e => rw [hb] at h; exact Except.noConfusion h
      | ok b =>
      rw [hb] at h
      cases hsr : splitLtGe c (rest ++ G) with
      | error e => rw [hsr] at h; exact Except.noConfusion h
      | ok pr =>
      obtain ⟨ls2, ge2⟩ := pr
      rw [hsr] at h
      have hlb := ih ls2 ge2 hsr
      cases b with
      | true =>
          replace h : (Except.ok (q :: ls2, ge2) :
              Except Err (List Partition × List Partition)) = .ok (ls, ge) := h
          injection h with h
          injection h with h1 h2
          subst h2
          exact hlb
      | false =>
          replace h : (Except.ok (ls2, q :: ge2) :
              Except Err (List Partition × List Partition)) = .ok (ls, ge) := h
          injection h with h
          injection h with h1 h2
          subst h2
          simp only [List.length_cons]
          omega

theorem getLast!_mem_cons {α : Type} [Inhabited α] (a : α) (l : List α) :
    (a :: l).getLast! ∈ a :: l := by
  rw [List.getLast!_cons]
  exact List.getLastD_mem_cons l a


theorem planStep_shape (c : List Int) (rates : List Q) (t lifespan : Q)
    (results : List Planned) (partition : Partition) (out : List Planned)
    (h : planStep c rates t lifespan results partition = .ok out) :
    (∃ el, out = results ++ [el] ∧ el.isChange = true) ∧ c ≠ [] := by
  unfold planStep at h
  cases hlast : results.getLast? with
  | none => rw [hlast] at h; exact Except.noConfusion h
  | some lastChanged =>
  rw [hlast] at h
  simp only [] at h
  cases hsof : predictForwardTime c lastChanged.pos rates t with
  | error e => rw [hsof] at h; exact Except.noConfusion h
  | ok sof =>
  rw [hsof] at h
  simp only [exceptBindOkSimp] at h
  refine ⟨?_, predictForwardTime_cur_ne _ _ _ _ _ hsof⟩
  cases hpt : partition.posAndTs with
  | some pr =>
      obtain ⟨l, pts?⟩ := pr
      rw [hpt] at h
      simp only [] at h
      cases pts? with
      | none => exact Except.noConfusion h
      | some pts =>
          simp only [pure_bind] at h
          injection h with h
          exact ⟨_, h.symm, by split <;> rfl⟩
  | none =>
      rw [hpt] at h
      simp only [] at h
      cases hlts : lastChanged.ts with
      | none => rw [hlts] at h; exact Except.noConfusion h
      | some lts =>
      rw [hlts] at h
      simp only [pure_bind] at h
      cases hlp : lastChanged.pos with
      | none => rw [hlp] at h; exact Except.noConfusion h
      | some lp =>
      rw [hlp] at h
      simp only [] at h
      cases hpf : predictForwardPosition lp rates lifespan with
      | error e => rw [hpf] at h; exact Except.noConfusion h
      | ok newPos =>
      rw [hpf] at h
      simp only [exceptBindOkSimp] at h
      cases hsp : ((mkChange partition).setTimestamp
          (Q.min (calculateStartTime lts t lifespan) sof)).setPosition newPos with
      | error e => rw [hsp] at h; exact Except.noConfusion h
      | ok el =>
      rw [hsp] at h
      simp only [exceptBindOkSimp] at h
      injection h with h
      refine ⟨el, h.symm, ?_⟩
      unfold Planned.setPosition at hsp
      cases hk : ((mkChange partition).setTimestamp
          (Q.min (calculateStartTime lts t lifespan) sof)).numCols with
      | none =>
          rw [hk] at hsp
          injection hsp with hsp
          subst hsp
          rfl
      | some k =>
          rw [hk] at hsp
          simp only [] at hsp
          by_cases hl : newPos.length ≠ k
          · rw [if_pos hl] at hsp; cases hsp
          · rw [if_neg hl] at hsp
            injection hsp with hsp
            subst hsp
            rfl

theorem planStep_inv (c : List Int) (rates : List Q) (t lifespan : Q)
    (results : List Planned) (partition : Partition) (out : List Planned)
    (h : planStep c rates t lifespan results partition = .ok out)
    (hinv : ∀ p ∈ results, PlannedInv c p)
    (hltp : partLtPos partition c = .ok false) :
    ∀ p ∈ out, PlannedInv c p := by
  unfold planStep at h
  cases hlast : results.getLast? with
  | none => rw [hlast] at h; exact Except.noConfusion h
  | some lastChanged =>
  rw [hlast] at h
  simp only [] at h
  cases hsof : predictForwardTime c lastChanged.pos rates t with
  | error e => rw [hsof] at h; exact Except.noConfusion h
  | ok sof =>
  rw [hsof] at h
  simp only [exceptBindOkSimp] at h
  cases hpt : partition.posAndTs with
  | some pr =>
      obtain ⟨l, pts?⟩ := pr
      rw [hpt] at h
      simp only [] at h
      cases pts? with
      | none => exact Except.noConfusion h
      | some pts =>
          simp only [pure_bind] at h
          injection h with h
          subst h
          intro p hp
          rcases List.mem_append.mp hp with hp | hp
          · exact hinv p hp
          · rcases List.mem_singleton.mp hp with rfl
            have hbase := mkChange_inv c partition hltp
            split
            · exact PlannedInv_of_fields hbase rfl rfl rfl
            · exact hbase
  | none =>
      rw [hpt] at h
      simp only [] at h
      cases hlts : lastChanged.ts with
      | none => rw [hlts] at h; exact Except.noConfusion h
      | some lts =>
      rw [hlts] at h
      simp only [pure_bind] at h
      cases hlp : lastChanged.pos with
      | none => rw [hlp] at h; exact Except.noConfusion h
      | some lp =>
      rw [hlp] at h
      simp only [] at h
      cases hpf : predictForwardPosition lp rates lifespan with
      | error e => rw [hpf] at h; exact Except.noConfusion h
      | ok newPos =>
      rw [hpf] at h
      simp only [exceptBindOkSimp] at h
      cases hsp : ((mkChange partition).setTimestamp
          (Q.min (calculateStartTime lts t lifespan) sof)).setPosition newPos with
      | error e => rw [hsp] at h; exact Except.noConfusion h
      | ok el =>
      rw [hsp] at h
      simp only [exceptBindOkSimp] at h
      injection h with h
      subst h
      intro p hp
      rcases List.mem_append.mp hp with hp | hp
      · exact hinv p hp
      · rcases List.mem_singleton.mp hp with rfl
        have hlcinv := hinv lastChanged (mem_of_getLast?_eq hlast)
        have hgelp : GeC c lp := by
          rcases hlcinv.1 with ⟨l2, hl2, hge⟩ | ⟨hnone, -⟩
          · rw [hlp] at hl2
            injection hl2 with hl2
            subst hl2
            exact hge
          · rw [hlp] at hnone
            cases hnone
        have hgenew : GeC c newPos :=
          GeC_trans hgelp (predictForwardPosition_post lp rates lifespan newPos hpf)
        refine setPosition_inv c _ newPos p hsp hgenew ?_
        intro old oldpos hkk
        have hkk2 : PlannedKind.change partition partition.oldPosOf
            = PlannedKind.change old oldpos := hkk
        injection hkk2 with h1 h2
        subst h1
        exact hltp

theorem foldlM_planStep_shape (c : List Int) (rates : List Q) (t lifespan : Q) :
    ∀ (empty : List Partition) (results out : List Planned),
      empty.foldlM (planStep c rates t lifespan) results = .ok out →
      (∀ p ∈ results, p.isChange = true) →
      (∀ p ∈ out, p.isChange = true) ∧ out.length = results.length + empty.length
        ∧ (empty ≠ [] → c ≠ []) := by
  intro empty
  induction empty with
  | nil =>
      intro results out h hall
      rw [List.foldlM_nil] at h
      injection h with h
      subst h
      exact ⟨hall, by simp, fun hne => absurd rfl hne⟩
  | cons e es ih =>
      intro results out h hall
      rw [List.foldlM_cons, exceptBindOk] at h
      obtain ⟨mid, hmid, hrest⟩ := h
      obtain ⟨⟨el, hmideq, helc⟩, hcne⟩ := planStep_shape _ _ _ _ _ _ _ hmid
      subst hmideq
      have hall2 : ∀ p ∈ results ++ [el], p.isChange = true := by
        intro p hp
        rcases List.mem_append.mp hp with hp | hp
        · exact hall p hp
        · rcases List.mem_singleton.mp hp with rfl
          exact helc
      obtain ⟨h1, h2, -⟩ := ih _ _ hrest hall2
      refine ⟨h1, ?_, fun _ => hcne⟩
      rw [h2]
      simp
      omega

theorem foldlM_planStep_inv (c : List Int) (rates : List Q) (t lifespan : Q) :
    ∀ (empty : List Partition) (results out : List Planned),
      empty.foldlM (planStep c rates t lifespan) results = .ok out →
      (∀ p ∈ results, PlannedInv c p) →
      (∀ p ∈ empty, partLtPos p c = .ok false) →
      ∀ p ∈ out, PlannedInv c p := by
  intro empty
  induction empty with
  | nil =>
      intro results out h hinv _
      rw [List.foldlM_nil] at h
      injection h with h
      subst h
      exact hinv
  | cons e es ih =>
      intro results out h hinv hge
      rw [List.foldlM_cons, exceptBindOk] at h
      obtain ⟨mid, hmid, hrest⟩ := h
      have hmidinv : ∀ p ∈ mid, PlannedInv c p :=
        planStep_inv _ _ _ _ _ _ _ hmid hinv (hge e (List.mem_cons_self _ _))
      exact ih _ _ hrest hmidinv fun p hp => hge p (List.mem_cons_of_mem _ hp)

theorem topUpFuel_noadd (rates : List Q) (t lifespan : Q) (target : Nat)
    (fuel : Nat) (results : List Planned) (hlen : target ≤ results.length) :
    topUpFuel rates t lifespan target fuel results = .ok results := by
  rw [topUpFuel.eq_def]
  simp only []
  rw [if_neg (by omega)]


theorem topUpFuel_post (c : List Int) (rates : List Q) (t lifespan : Q)
    (target : Nat) :
    ∀ (fuel : Nat) (results out : List Planned),
      topUpFuel rates t lifespan target fuel results = .ok out →
      (∀ p ∈ results, PlannedInv c p) →
      (∀ p ∈ out, PlannedInv c p) ∧ target ≤ out.length := by
  intro fuel
  induction fuel with
  | zero =>
      intro results out h hinv
      rw [topUpFuel.eq_def] at h
      simp only [] at h
      by_cases hlt : results.length < target
      · rw [if_pos hlt] at h
        cases h
      · rw [if_neg hlt] at h
        injection h with h
        subst h
        exact ⟨hinv, by omega⟩
  | succ n ih =>
      intro results out h hinv
      rw [topUpFuel.eq_def] at h
      simp only [] at h
      by_cases hlt : results.length < target
      · rw [if_pos hlt] at h
        cases hlast : results.getLast? with
        | none => rw [hlast] at h; exact Except.noConfusion h
        | some lastChanged =>
        rw [hlast] at h
        simp only [] at h
        cases hlts : lastChanged.ts with
        | none => rw [hlts] at h; exact Except.noConfusion h
        | some lts =>
        rw [hlts] at h
        simp only [pure_bind] at h
        cases hlp : lastChanged.pos with
        | none => rw [hlp] at h; exact Except.noConfusion h
        | some lp =>
        rw [hlp] at h
        simp only [] at h
        cases hpf : predictForwardPosition lp rates lifespan with
        | error e => rw [hpf] at h; exact Except.noConfusion h
        | ok newPos =>
        rw [hpf] at h
        simp only [exceptBindOkSimp] at h
        cases hsp : mkNew.setPosition newPos with
        | error e => rw [hsp] at h; exact Except.noConfusion h
        | ok newPart =>
        rw [hsp] at h
        simp only [exceptBindOkSimp] at h
        have hlcinv := hinv lastChanged (mem_of_getLast?_eq hlast)
        have hgelp : GeC c lp := by
          rcases hlcinv.1 with ⟨l2, hl2, hge⟩ | ⟨hnone, -⟩
          · rw [hlp] at hl2
            injection hl2 with hl2
            subst hl2
            exact hge
          · rw [hlp] at hnone
            cases hnone
        have hgenew : GeC c newPos :=
          GeC_trans hgelp (predictForwardPosition_post lp rates lifespan newPos hpf)
        have hnpinv : PlannedInv c newPart := by
          refine setPosition_inv c mkNew newPos newPart hsp hgenew ?_
          intro old oldpos hkk
          cases hkk
        refine ih _ _ h ?_
        intro p hp
        rcases List.mem_append.mp hp with hp | hp
        · exact hinv p hp
        · rcases List.mem_singleton.mp hp with rfl
          exact PlannedInv_of_fields hnpinv rfl rfl rfl
      · rw [if_neg hlt] at h
        injection h with h
        subst h
        exact ⟨hinv, by omega⟩

theorem resolveConflicts_inv (c : List Int) (existing : List (Option Q))
    (results out : List Planned)
    (h : resolveConflicts existing results = .ok out)
    (hinv : ∀ p ∈ results, PlannedInv c p) :
    (∀ p ∈ out, PlannedInv c p) ∧ out.length = results.length := by
  have hf := mapM_ok_forall₂ _ results out h
  constructor
  · intro q hq
    obtain ⟨p, hpmem, hpq⟩ := forall₂_mem_right hf q hq
    obtain ⟨h1, h2, h3⟩ := bumpTimestamp_fields existing _ p q hpq
    exact PlannedInv_of_fields (hinv p hpmem) h1 h2 h3
  · exact (List.Forall₂.length_eq hf).symm

theorem resolveConflicts_allChange (existing : List (Option Q))
    (results out : List Planned)
    (h : resolveConflicts existing results = .ok out)
    (hall : ∀ p ∈ results, p.isChange = true) :
    ∀ p ∈ out, p.isChange = true := by
  have hf := mapM_ok_forall₂ _ results out h
  intro q hq
  obtain ⟨p, hpmem, hpq⟩ := forall₂_mem_right hf q hq
  obtain ⟨-, -, h3⟩ := bumpTimestamp_fields existing _ p q hpq
  have := hall p hpmem
  unfold Planned.isChange Planned.isNew at this ⊢
  rw [h3]
  exact this

theorem collectChangesNews_src :
    ∀ (l mods news m nw : List Planned),
      collectChangesNews l mods news = .ok (m, nw) →
      (∀ x ∈ m, x ∈ l ∨ x ∈ mods) ∧ (∀ x ∈ nw, x ∈ l ∨ x ∈ news) := by
  intro l
  induction l with
  | nil =>
      intro mods news m nw h
      injection h with h
      injection h with h1 h2
      subst h1
      subst h2
      constructor
      · intro x hx
        exact Or.inr (List.mem_reverse.mp hx)
      · intro x hx
        exact Or.inr (List.mem_reverse.mp hx)
  | cons q rest ih =>
      intro mods news m nw h
      rw [collectChangesNews] at h
      by_cases hq : q.isChange
      · rw [if_pos hq] at h
        by_cases hne : news.isEmpty
        · rw [if_neg (by simp [hne])] at h
          obtain ⟨h1, h2⟩ := ih _ _ _ _ h
          constructor
          · intro x hx
            rcases h1 x hx with hx | hx
            · exact Or.inl (List.mem_cons_of_mem _ hx)
            · rcases List.mem_cons.mp hx with rfl | hx
              · exact Or.inl (List.mem_cons_self _ _)
              · exact Or.inr hx
          · intro x hx
            rcases h2 x hx with hx | hx
            · exact Or.inl (List.mem_cons_of_mem _ hx)
            · exact Or.inr hx
        · rw [if_pos (by simpa using hne)] at h
          cases h
      · rw [if_neg hq] at h
        obtain ⟨h1, h2⟩ := ih _ _ _ _ h
        constructor
        · intro x hx
          rcases h1 x hx with hx | hx
          · exact Or.inl (List.mem_cons_of_mem _ hx)
          · exact Or.inr hx
        · intro x hx
          rcases h2 x hx with hx | hx
          · exact Or.inl (List.mem_cons_of_mem _ hx)
          · rcases List.mem_cons.mp hx with rfl | hx
            · exact Or.inl (List.mem_cons_self _ _)
            · exact Or.inr hx

theorem collectChangesNews_length :
    ∀ (l mods news m nw : List Planned),
      collectChangesNews l mods news = .ok (m, nw) →
      m.length + nw.length = l.length + mods.length + news.length := by
  intro l
  induction l with
  | nil =>
      intro mods news m nw h
      injection h with h
      injection h with h1 h2
      subst h1
      subst h2
      simp
  | cons q rest ih =>
      intro mods news m nw h
      rw [collectChangesNews] at h
      by_cases hq : q.isChange
      · rw [if_pos hq] at h
        by_cases hne : news.isEmpty
        · rw [if_neg (by simp [hne])] at h
          have := ih _ _ _ _ h
          simp only [List.length_cons] at this ⊢
          omega
        · rw [if_pos (by simpa using hne)] at h
          cases h
      · rw [if_neg hq] at h
        have := ih _ _ _ _ h
        simp only [List.length_cons] at this ⊢
        omega


theorem splitPartitionsAroundPosition_spec (ps : List Partition) (c : List Int)
    (filled : List Partition) (active : Partition) (empty : List Partition)
    (h : splitPartitionsAroundPosition ps c = .ok (filled, active, empty)) :
    splitLtGe c ps = .ok (filled, active :: empty) := by
  unfold splitPartitionsAroundPosition at h
  cases hs : splitLtGe c ps with
  | error e => rw [hs] at h; exact Except.noConfusion h
  | ok pr =>
  obtain ⟨ls, ge⟩ := pr
  rw [hs] at h
  simp only [exceptBindOkSimp] at h
  cases ge with
  | nil => exact Except.noConfusion h
  | cons a rest =>
      injection h with h
      injection h with h1 h2
      injection h2 with h2 h3
      subst h1
      subst h2
      subst h3
      rfl

theorem oldPartition?_kind (p : Planned) (o : Partition)
    (h : p.oldPartition? = some o) : ∃ oldpos, p.kind = .change o oldpos := by
  unfold Planned.oldPartition? at h
  cases hk : p.kind with
  | change old oldpos =>
      rw [hk] at h
      injection h with h
      subst h
      exact ⟨oldpos, rfl⟩
  | new =>
      rw [hk] at h
      cases h

theorem isNew_false_of_isChange (p : Planned) (h : p.isChange = true) :
    p.isNew = false := by
  unfold Planned.isChange at h
  cases hn : p.isNew with
  | false => rfl
  | true => rw [hn] at h; cases h

theorem planIntended_post (L : List Partition) (c : List Int)
    (t lifespan : Q) (n : Nat) (plan : List Planned)
    (hplan : planPartitionChangesIntended L c t lifespan n = .ok plan) :
    (∀ p ∈ plan, PlannedInv c p) ∧ n + 1 ≤ plan.length ∧ c ≠ [] := by
  unfold planPartitionChangesIntended at hplan
  cases h1 : splitPartitionsAroundPosition L c with
  | error e => rw [h1] at hplan; exact Except.noConfusion hplan
  | ok trip =>
  obtain ⟨filled, active, empty⟩ := trip
  rw [h1] at hplan
  simp only [exceptBindOkSimp] at hplan
  cases he : empty.isEmpty with
  | true => rw [he] at hplan; exact Except.noConfusion hplan
  | false =>
  rw [he] at hplan
  simp only [Bool.false_eq_true, if_false] at hplan
  cases h2 : active.timestamp with
  | none => rw [h2] at hplan; exact Except.noConfusion hplan
  | some ats =>
  rw [h2] at hplan
  simp only [pure_bind] at hplan
  cases h3 : rateRelevantPartitionsIntended filled active c t ats with
  | error e => rw [h3] at hplan; exact Except.noConfusion hplan
  | ok rel =>
  rw [h3] at hplan
  simp only [exceptBindOkSimp] at hplan
  cases h4 : getWeightedPositionIncreasePerDayForPartitions rel with
  | error e => rw [h4] at hplan; exact Except.noConfusion hplan
  | ok rates =>
  rw [h4] at hplan
  simp only [exceptBindOkSimp] at hplan
  cases h5 : empty.foldlM (planStep c rates t lifespan) [mkChange active] with
  | error e => rw [h5] at hplan; exact Except.noConfusion hplan
  | ok afterLoop =>
  rw [h5] at hplan
  simp only [exceptBindOkSimp] at hplan
  cases h6 : topUp rates t lifespan (n + 1) afterLoop with
  | error e => rw [h6] at hplan; exact Except.noConfusion hplan
  | ok afterTopUp =>
  rw [h6] at hplan
  simp only [exceptBindOkSimp] at hplan
  cases h7 : resolveConflicts (L.map Partition.timestamp) afterTopUp with
  | error e => rw [h7] at hplan; exact Except.noConfusion hplan
  | ok resolved =>
  rw [h7] at hplan
  simp only [exceptBindOkSimp] at hplan
  cases h8 : resolved.getLast? with
  | none => rw [h8] at hplan; exact Except.noConfusion hplan
  | some last =>
  rw [h8] at hplan
  simp only [] at hplan
  cases h9 : last.setAsMaxValue with
  | error e => rw [h9] at hplan; exact Except.noConfusion hplan
  | ok last2 =>
  rw [h9] at hplan
  simp only [exceptBindOkSimp] at hplan
  injection hplan with hplan
  subst hplan
  have hsl : splitLtGe c L = .ok (filled, active :: empty) :=
    splitPartitionsAroundPosition_spec L c filled active empty h1
  have hgefalse : ∀ p ∈ active :: empty, partLtPos p c = .ok false :=
    splitLtGe_ge_false c L filled (active :: empty) hsl
  have hinv0 : ∀ p ∈ [mkChange active], PlannedInv c p := by
    intro p hp
    rcases List.mem_singleton.mp hp with rfl
    exact mkChange_inv c active (hgefalse active (List.mem_cons_self _ _))
  have hinvAL : ∀ p ∈ afterLoop, PlannedInv c p :=
    foldlM_planStep_inv c rates t lifespan empty [mkChange active] afterLoop h5
      hinv0 (fun p hp => hgefalse p (List.mem_cons_of_mem _ hp))
  have hene : empty ≠ [] := by
    intro hnil
    rw [hnil] at he
    cases he
  have hcne : c ≠ [] := by
    obtain ⟨-, -, hc⟩ := foldlM_planStep_shape c rates t lifespan empty
      [mkChange active] afterLoop h5
      (by intro p hp; rcases List.mem_singleton.mp hp with rfl; rfl)
    exact hc hene
  unfold topUp at h6
  obtain ⟨hinvTU, hlenTU⟩ :=
    topUpFuel_post c rates t lifespan (n + 1) (n + 1) afterLoop afterTopUp h6 hinvAL
  obtain ⟨hinvR, hlenR⟩ :=
    resolveConflicts_inv c (L.map Partition.timestamp) afterTopUp resolved h7 hinvTU
  have hrne : resolved ≠ [] := List.ne_nil_of_mem (mem_of_getLast?_eq h8)
  refine ⟨?_, ?_, hcne⟩
  · intro p hp
    rcases List.mem_append.mp hp with hp | hp
    · exact hinvR p (List.dropLast_subset _ hp)
    · rcases List.mem_singleton.mp hp with rfl
      exact setAsMaxValue_inv c last p (hinvR last (mem_of_getLast?_eq h8)) h9
  · have h10 : resolved.dropLast.length = resolved.length - 1 := List.length_dropLast _
    have h11 : 0 < resolved.length := List.length_pos.mpr hrne
    simp only [List.length_append, List.length_singleton]
    omega

theorem planIntended_no_news (L : List Partition) (c : List Int)
    (t lifespan : Q) (n : Nat) (plan : List Planned)
    (hplan : planPartitionChangesIntended L c t lifespan n = .ok plan)
    (hlb : ∀ ls0 ge0, splitLtGe c L = .ok (ls0, ge0) → n + 1 ≤ ge0.length) :
    countNews plan = 0 := by
  unfold planPartitionChangesIntended at hplan
  cases h1 : splitPartitionsAroundPosition L c with
  | error e => rw [h1] at hplan; exact Except.noConfusion hplan
  | ok trip =>
  obtain ⟨filled, active, empty⟩ := trip
  rw [h1] at hplan
  simp only [exceptBindOkSimp] at hplan
  cases he : empty.isEmpty with
  | true => rw [he] at hplan; exact Except.noConfusion hplan
  | false =>
  rw [he] at hplan
  simp only [Bool.false_eq_true, if_false] at hplan
  cases h2 : active.timestamp with
  | none => rw [h2] at hplan; exact Except.noConfusion hplan
  | some ats =>
  rw [h2] at hplan
  simp only [pure_bind] at hplan
  cases h3 : rateRelevantPartitionsIntended filled active c t ats with
  | error e => rw [h3] at hplan; exact Except.noConfusion hplan
  | ok rel =>
  rw [h3] at hplan
  simp only [exceptBindOkSimp] at hplan
  cases h4 : getWeightedPositionIncreasePerDayForPartitions rel with
  | error e => rw [h4] at hplan; exact Except.noConfusion hplan
  | ok rates =>
  rw [h4] at hplan
  simp only [exceptBindOkSimp] at hplan
  cases h5 : empty.foldlM (planStep c rates t lifespan) [mkChange active] with
  | error e => rw [h5] at hplan; exact Except.noConfusion hplan
  | ok afterLoop =>
  rw [h5] at hplan
  simp only [exceptBindOkSimp] at hplan
  have hsl : splitLtGe c L = .ok (filled, active :: empty) :=
    splitPartitionsAroundPosition_spec L c filled active empty h1
  have hgelen : n + 1 ≤ (active :: empty).length := hlb filled (active :: empty) hsl
  obtain ⟨hallc, hlenAL, -⟩ := foldlM_planStep_shape c rates t lifespan empty
    [mkChange active] afterLoop h5
    (by intro p hp; rcases List.mem_singleton.mp hp with rfl; rfl)
  have hlenAL2 : n + 1 ≤ afterLoop.length := by
    rw [hlenAL]
    simp only [List.length_singleton, List.length_cons] at hgelen ⊢
    omega
  rw [topUp, topUpFuel_noadd rates t lifespan (n + 1) (n + 1) afterLoop hlenAL2]
    at hplan
  simp only [exceptBindOkSimp] at hplan
  cases h7 : resolveConflicts (L.map Partition.timestamp) afterLoop with
  | error e => rw [h7] at hplan; exact Except.noConfusion hplan
  | ok resolved =>
  rw [h7] at hplan
  simp only [exceptBindOkSimp] at hplan
  cases h8 : resolved.getLast? with
  | none => rw [h8] at hplan; exact Except.noConfusion hplan
  | some last =>
  rw [h8] at hplan
  simp only [] at hplan
  cases h9 : last.setAsMaxValue with
  | error e => rw [h9] at hplan; exact Except.noConfusion hplan
  | ok last2 =>
  rw [h9] at hplan
  simp only [exceptBindOkSimp] at hplan
  injection hplan with hplan
  subst hplan
  have hallR : ∀ p ∈ resolved, p.isChange = true :=
    resolveConflicts_allChange (L.map Partition.timestamp) afterLoop resolved h7 hallc
  rw [countNews, List.countP_eq_zero]
  intro p hp
  rcases List.mem_append.mp hp with hp | hp
  · have := isNew_false_of_isChange p (hallR p (List.dropLast_subset _ hp))
    simp [this]
  · rcases List.mem_singleton.mp hp with rfl
    obtain ⟨-, hkind⟩ := setAsMaxValue_preserves last p h9
    have hlc := isNew_false_of_isChange last (hallR last (mem_of_getLast?_eq h8))
    have : p.isNew = false := by
      unfold Planned.isNew at hlc ⊢
      rw [hkind]
      exact hlc
    simp [this]


/-- C1.  In the intended planner (the committed one raises `TypeError` on
every run, `planPartitionChanges_not_ok`), replanning after applying a
successful plan never creates New partitions: whenever plan–apply–replan
succeeds end to end, the second plan contains no `NewPlannedPartition`s (it
may still contain Changes with modifications, so a second run can emit
further SQL: `replanIntended_modified_change`). -/
theorem c1_intended_no_new_partitions (partitionList : List Partition)
    (c : List Int) (t lifespan : Q) (n : Nat) (plan2 : List Planned)
    (hre : replanAfterApplyIntended partitionList c t lifespan n = .ok plan2) :
    countNews plan2 = 0 := by
  unfold replanAfterApplyIntended at hre
  cases hp1 : planPartitionChangesIntended partitionList c t lifespan n with
  | error e => rw [hp1] at hre; exact Except.noConfusion hre
  | ok plan1 =>
  rw [hp1] at hre
  simp only [exceptBindOkSimp] at hre
  cases hap : applyPlan partitionList c plan1 with
  | error e => rw [hap] at hre; exact Except.noConfusion hre
  | ok L2 =>
  rw [hap] at hre
  simp only [exceptBindOkSimp] at hre
  obtain ⟨hinv1, hlen1, hcne⟩ :=
    planIntended_post partitionList c t lifespan n plan1 hp1
  unfold applyPlan at hap
  cases hs : splitPartitionsAroundPosition partitionList c with
  | error e => rw [hs] at hap; exact Except.noConfusion hap
  | ok trip =>
  obtain ⟨filled, active, empty⟩ := trip
  rw [hs] at hap
  simp only [exceptBindOkSimp] at hap
  cases hcol : collectChangesNews plan1 [] [] with
  | error e => rw [hcol] at hap; exact Except.noConfusion hap
  | ok pr =>
  obtain ⟨changes, news⟩ := pr
  rw [hcol] at hap
  simp only [exceptBindOkSimp] at hap
  cases holds : changes.mapM (fun m => match m.oldPartition? with
      | some o => pure o
      | none => Except.error Err.valueError) with
  | error e => rw [holds] at hap; exact Except.noConfusion hap
  | ok olds =>
  rw [holds] at hap
  simp only [exceptBindOkSimp] at hap
  by_cases hchk : ¬((olds == active :: empty) = true)
  · rw [if_pos hchk] at hap
    exact Except.noConfusion hap
  · rw [if_neg hchk] at hap
    cases hsr : shouldRunChanges plan1 with
    | false =>
        rw [hsr] at hap
        simp only [Bool.not_false, if_true] at hap
        injection hap with hap
        subst hap
        rw [hp1] at hre
        injection hre with hre
        subst hre
        rw [countNews, List.countP_eq_zero]
        intro p hp
        unfold shouldRunChanges at hsr
        rw [List.any_eq_false] at hsr
        have h2 := hsr p hp
        simp only [Bool.or_eq_true, not_or] at h2
        exact h2.1
    | true =>
        rw [hsr] at hap
        simp only [Bool.not_true, Bool.false_eq_true, if_false] at hap
        cases hmods : changes.mapM Planned.hasModifications with
        | error e => rw [hmods] at hap; exact Except.noConfusion hap
        | ok mods =>
        rw [hmods] at hap
        simp only [exceptBindOkSimp] at hap
        cases hbail : (news.isEmpty && mods.all fun b => !b) with
        | true =>
            rw [hbail] at hap
            injection hap with hap
            subst hap
            rw [hp1] at hre
            injection hre with hre
            subst hre
            have hnewsnil : news = [] := by
              have := (Bool.and_eq_true _ _).mp hbail
              exact List.isEmpty_iff.mp this.1
            rw [countNews, List.countP_eq_zero]
            intro p hp
            intro hN
            have hpc : p.isChange = false := by
              unfold Planned.isChange
              rw [hN]
              rfl
            have := collectChangesNews_mem_news plan1 [] [] changes news hcol p hp hpc
            rw [hnewsnil] at this
            cases this
        | false =>
            rw [hbail] at hap
            simp only [Bool.false_eq_true, if_false] at hap
            cases hch : changes with
            | nil => rw [hch] at hap; exact Except.noConfusion hap
            | cons ch cht =>
            rw [hch] at hap
            simp only [] at hap
            rw [exceptBindOk] at hap
            obtain ⟨applied, happlied, hap⟩ := hap
            rw [exceptBindOk] at hap
            obtain ⟨newsApplied, hnewsA, hap⟩ := hap
            injection hap with hap
            subst hap
            -- source facts
            have hchsub : ∀ x ∈ changes, x ∈ plan1 := by
              intro x hx
              rcases (collectChangesNews_src plan1 [] [] changes news hcol).1 x hx
                with hx2 | hx2
              · exact hx2
              · cases hx2
            have hnwsub : ∀ x ∈ news, x ∈ plan1 := by
              intro x hx
              rcases (collectChangesNews_src plan1 [] [] changes news hcol).2 x hx
                with hx2 | hx2
              · exact hx2
              · cases hx2
            have hfa := mapM_ok_forall₂ _ _ _ happlied
            have hfn := mapM_ok_forall₂ _ _ _ hnewsA
            have hG : ∀ p ∈ applied ++ newsApplied, partLtPos p c = .ok false := by
              intro p hp
              rcases List.mem_append.mp hp with hp | hp
              · obtain ⟨x, hxmem, hfx⟩ := forall₂_mem_right hfa p hp
                have hx1 : x.1.1 ∈ changes := by
                  have hx1w : x.1 ∈ ((ch :: cht).dropLast.map fun m => (m, false))
                      ++ [((ch :: cht).getLast!, true)] :=
                    (List.of_mem_zip hxmem).1
                  rcases List.mem_append.mp hx1w with hw | hw
                  · obtain ⟨m, hm, hme⟩ := List.mem_map.mp hw
                    rw [hch]
                    rw [← hme]
                    exact List.dropLast_subset _ hm
                  · rcases List.mem_singleton.mp hw with hw
                    rw [hw, hch]
                    exact getLast!_mem_cons ch cht
                have hxinv : PlannedInv c x.1.1 := hinv1 _ (hchsub _ hx1)
                cases hcond : (x.1.2 || x.2) with
                | true =>
                    rw [hcond] at hfx
                    replace hfx : x.1.1.asPartition = .ok p := hfx
                    exact asPartition_ltFalse c x.1.1 p hcne hxinv hfx
                | false =>
                    rw [hcond] at hfx
                    replace hfx : (match x.1.1.oldPartition? with
                      | some o => pure o
                      | none => Except.error Err.valueError) = Except.ok p := hfx
                    cases hop : x.1.1.oldPartition? with
                    | none => rw [hop] at hfx; cases hfx
                    | some o =>
                        rw [hop] at hfx
                        injection hfx with hfx
                        subst hfx
                        obtain ⟨oldpos, hk⟩ := oldPartition?_kind _ _ hop
                        exact hxinv.2 _ oldpos hk
              · obtain ⟨x, hxmem, hfx⟩ := forall₂_mem_right hfn p hp
                exact asPartition_ltFalse c x p hcne (hinv1 _ (hnwsub _ hxmem)) hfx
            have hGlen : plan1.length ≤ (applied ++ newsApplied).length := by
              have hla : applied.length
                  = ((((ch :: cht).dropLast.map fun m => (m, false))
                      ++ [((ch :: cht).getLast!, true)]).zip mods).length :=
                (List.Forall₂.length_eq hfa).symm
              have hlm : changes.length = mods.length :=
                List.Forall₂.length_eq (mapM_ok_forall₂ _ _ _ hmods)
              have hln : news.length = newsApplied.length :=
                List.Forall₂.length_eq hfn
              have hcl : changes.length + news.length = plan1.length := by
                have := collectChangesNews_length plan1 [] [] changes news hcol
                simpa using this
              have hwe : (((ch :: cht).dropLast.map fun m => (m, false))
                  ++ [((ch :: cht).getLast!, true)]).length = changes.length := by
                rw [hch]
                simp [List.length_dropLast]
              rw [List.length_append]
              rw [hla, List.length_zip, hwe]
              have : changes.length ⊓ mods.length = changes.length := by
                rw [hlm]
                exact min_self _
              omega
            refine planIntended_no_news _ c t lifespan n plan2 hre ?_
            intro ls0 ge0 hsplit2
            have hsplit2' : splitLtGe c (filled ++ (applied ++ newsApplied))
                = .ok (ls0, ge0) := by
              rw [← List.append_assoc]
              exact hsplit2
            have hlb2 := splitLtGe_ge_lb c (applied ++ newsApplied) hG filled
              ls0 ge0 hsplit2'
            omega


set_option maxRecDepth 100000 in
/-- C1, witness: plan–apply–replan on the planner-test fixture yields a
second plan with no New partitions. -/
theorem c1_witness :
    countNews ((replanAfterApplyIntended fixtureBasic [50] (Q.ofInt 18628)
        (Q.ofInt 7) 2).toOption.getD []) = 0 :=
  c1_intended_no_new_partitions fixtureBasic [50] (Q.ofInt 18628) (Q.ofInt 7) 2
    ((replanAfterApplyIntended fixtureBasic [50] (Q.ofInt 18628) (Q.ofInt 7)
        2).toOption.getD []) (by decide)

end PartMan
